import Mathlib

/-!
# Verification of the starfish Codebook / trace-builder core

Shallow embedding of `src/starfish/codebook.py` and
`src/starfish/core/spots/DecodeSpots/trace_builders.py`.

Conventions of the embedding:
* The codebook tensor is stored gene-major as a list of `(gene_name, matrix)`
  pairs, the matrix being `n_ch` rows of `n_hyb` entries, mirroring the
  `(gene, c, h)` axis order of the xarray.  Codebook values live in `uint8`
  in the source (`_empty_codebook` allocates `dtype=np.uint8`), so cell
  writes reduce modulo 256.
* Python dictionaries that may lack the `codeword` / `gene_name` keys are
  records of `Option` fields; a key lookup on a missing field raises
  `KeyError`, modelled by the `PyErr.keyError` error value.
* Fallible constructors return `Except PyErr`.
* Intensities are rationals.  IEEE-special values produced by the
  normalization helper (`0/0 -> NaN`, `x/0 -> inf`) are modelled explicitly
  by the `PFloat` type so that `fillna` semantics are faithful.
-/

/-- A single codeword cell of the spaceTx schema: hybridization-round index
`h`, channel index `c`, value `v` (values are written into a `uint8` tensor). -/
structure CodeEntry where
  h : Nat
  c : Nat
  v : Nat
deriving DecidableEq, Repr

/-- One record of a spaceTx code array.  Either field may be absent from the
underlying Python dictionary, hence the `Option`s. -/
structure CodeRecord where
  gene_name : Option String
  codeword : Option (List CodeEntry)
deriving DecidableEq, Repr

/-- Python exceptions raised by `from_code_array`.  Each constructor stands
for one `raise` site (or implicit `KeyError`) of the source, with the data
interpolated into the corresponding message:
* `keyError f` — `code[f]` on a dictionary lacking key `f` (raised inside the
  dimension-inference loop before any validation runs);
* `hybValueError req prov` — "code detected that requires a hybridization
  value (req) that is greater than provided n_hyb: prov";
* `chValueError req prov` — "code detected that requires a channel value
  (req) that is greater than provided n_hyb: prov" (the source message
  mislabels the provided bound as `n_hyb`, but reports the channel
  dimension as the offending one);
* `missingFieldsError fs` — "Each entry of codebook must contain
  {required_fields}. Missing fields: fs". -/
inductive PyErr where
  | keyError (field : String)
  | hybValueError (required provided : Nat)
  | chValueError (required provided : Nat)
  | missingFieldsError (fields : List String)
deriving DecidableEq, Repr

/-- A gene's expected-intensity matrix: `n_ch` rows, each of `n_hyb`
values. -/
abbrev NMat := List (List Nat)

/-- The codebook: fixed channel/round dimensions plus the ordered gene axis
with one value matrix per gene. -/
structure Codebook where
  n_ch : Nat
  n_hyb : Nat
  codes : List (String × NMat)
deriving DecidableEq, Repr

namespace Codebook

/-- Source `code_length`: product of the two non-gene dimensions. -/
def code_length (cb : Codebook) : Nat := cb.n_ch * cb.n_hyb

/-- Read a tensor cell `(c, h)` of one gene's matrix; out-of-range reads
default to 0 (in-source, all accesses are within the allocated shape). -/
def matGet (mat : NMat) (c h : Nat) : Nat := (mat.getD c []).getD h 0

/-- All-zero matrix of shape `(n_ch, n_hyb)`, as allocated by
`_empty_codebook` (`np.zeros((genes, n_ch, n_hyb), dtype=np.uint8)`). -/
def zerosMat (n_ch n_hyb : Nat) : NMat :=
  List.replicate n_ch (List.replicate n_hyb 0)

/-- Write value `v` at cell `(c, h)`; the target is a `uint8` tensor so the
stored value is `v % 256`.  `List.set` is a no-op out of range, which is
unreachable because the range checks precede every write. -/
def matSet (mat : NMat) (c h v : Nat) : NMat :=
  mat.set c ((mat.getD c []).set h (v % 256))

/-- Source `_empty_codebook`: all-zero codebook over the given gene axis. -/
def _empty_codebook (code_names : List String) (n_ch n_hyb : Nat) : Codebook :=
  { n_ch := n_ch
    n_hyb := n_hyb
    codes := code_names.map (fun g => (g, zerosMat n_ch n_hyb)) }

/-- The dimension-inference loop at the top of `from_code_array`:
`max_hyb, max_ch = 0, 0; for code in code_array: for entry in code[CODEWORD]: ...`.
Looking up `code[CODEWORD]` on a record lacking the field raises `KeyError`
right here, before any validation. -/
def inferMax : List CodeRecord → Except PyErr (Nat × Nat)
  | [] => .ok (0, 0)
  | r :: rest =>
    match r.codeword with
    | none => .error (.keyError "codeword")
    | some cw => do
      let (mh, mc) ← inferMax rest
      let mh' := cw.foldl (fun acc e => max acc e.h) 0
      let mc' := cw.foldl (fun acc e => max acc e.c) 0
      .ok (max mh' mh, max mc' mc)

/-- The per-record field check of the validation loop:
`required_fields.difference(code)` for `{CODEWORD, GENE}`. -/
def missingFields (r : CodeRecord) : List String :=
  (if r.codeword.isNone then ["codeword"] else []) ++
    (if r.gene_name.isNone then ["gene_name"] else [])

/-- The validation loop of `from_code_array` (the `isinstance(code, dict)`
check cannot fail in this embedding, where every record is a record). -/
def validateRecords : List CodeRecord → Except PyErr Unit
  | [] => .ok ()
  | r :: rest =>
    if missingFields r ≠ [] then .error (.missingFieldsError (missingFields r))
    else validateRecords rest

/-- Source `code_data.loc[gene, c, h] = v`: label-based assignment writes the cell
in every gene row whose label equals `gene`. -/
def setCellAll (codes : List (String × NMat)) (gene : String) (c h v : Nat) :
    List (String × NMat) :=
  codes.map (fun p => if p.1 = gene then (p.1, matSet p.2 c h v) else p)

/-- Apply one record's codeword: the inner fill loop
`for entry in codeword: code_data.loc[gene, entry[CH], entry[HYB]] = entry[VALUE]`. -/
def applyRecord (codes : List (String × NMat)) (r : CodeRecord) :
    List (String × NMat) :=
  (r.codeword.getD []).foldl
    (fun acc e => setCellAll acc (r.gene_name.getD "") e.c e.h e.v) codes

/-- The outer fill loop over all records. -/
def fillAll (codes : List (String × NMat)) (arr : List CodeRecord) :
    List (String × NMat) :=
  arr.foldl applyRecord codes

/-- Source `from_code_array`, following the source statement by statement:
dimension inference (which raises `KeyError` on a record lacking
`codeword`), defaulting of `n_hyb` / `n_ch` to the inferred maxima plus one,
the two range checks, the validation loop, then allocation and fill. -/
def from_code_array (code_array : List CodeRecord)
    (n_hyb n_ch : Option Nat) : Except PyErr Codebook := do
  let (max_hyb, max_ch) ← inferMax code_array
  let n_hyb := n_hyb.getD (max_hyb + 1)
  let n_ch := n_ch.getD (max_ch + 1)
  if max_hyb + 1 > n_hyb then
    .error (.hybValueError (max_hyb + 1) n_hyb)
  else if max_ch + 1 > n_ch then
    .error (.chValueError (max_ch + 1) n_ch)
  else do
    validateRecords code_array
    let gene_names := code_array.map (fun r => r.gene_name.getD "")
    let code_data := _empty_codebook gene_names n_ch n_hyb
    .ok { code_data with codes := fillAll code_data.codes code_array }

/-- The codeword `to_json` emits for one gene matrix: every non-zero cell as
a `(c, h, v)` entry, channels in the outer loop and rounds in the inner
loop. -/
def toJsonCodeword (mat : NMat) (n_ch n_hyb : Nat) : List CodeEntry :=
  (List.range n_ch).flatMap (fun c =>
    (List.range n_hyb).filterMap (fun h =>
      if matGet mat c h ≠ 0 then
        some { h := h, c := c, v := matGet mat c h }
      else none))

/-- Source `to_json` (the serialized array, file I/O elided): per gene, emit the
non-zero cells as the codeword, paired with the gene label.  The source
reads cells back by gene label (`self.loc[gene, ch, hyb]`), which coincides
with this positional read whenever gene labels are unique. -/
def to_json (cb : Codebook) : List CodeRecord :=
  cb.codes.map (fun p =>
    { gene_name := some p.1
      codeword := some (toJsonCodeword p.2 cb.n_ch cb.n_hyb) })

/-- Shape/value invariant of constructed codebooks: every matrix has the
declared shape and every value fits in `uint8`. -/
def WellFormed (cb : Codebook) : Prop :=
  ∀ p ∈ cb.codes, p.2.length = cb.n_ch ∧
    ∀ row ∈ p.2, row.length = cb.n_hyb ∧ ∀ v ∈ row, v < 256

instance (cb : Codebook) : Decidable cb.WellFormed := by
  unfold WellFormed; infer_instance

/-- A tuple `(g, c, h, v)` is a non-zero-cell triple of the codebook: some gene row
labelled `g` holds the non-zero value `v` at cell `(c, h)`. -/
def hasTriple (cb : Codebook) (g : String) (c h v : Nat) : Prop :=
  v ≠ 0 ∧ ∃ p ∈ cb.codes, p.1 = g ∧ matGet p.2 c h = v

instance (cb : Codebook) (g : String) (c h v : Nat) :
    Decidable (cb.hasTriple g c h v) := by
  unfold hasTriple; infer_instance

/-! ### Synthetic one-hot generation -/

/-- One iteration's candidate code in `synthetic_one_hot_codebook`:
`tuple([np.random.randint(0, n_channel) for _ in np.arange(n_hyb)])`.
The process-wide random source is modelled as an explicit stream `draws`
giving the tuple drawn at each iteration. -/
def synthLoop (n_codes : Nat) (draws : Nat → List Nat) :
    Nat → Nat → List (List Nat) → Option (List (List Nat))
  | 0, _, _ => none
  | fuel + 1, k, acc =>
    if acc.length < n_codes then
      synthLoop n_codes draws fuel (k + 1)
        (if draws k ∈ acc then acc else acc ++ [draws k])
    else some acc

/-- Source `[{HYB: h, CH: c, 'v': 1} for h, c in enumerate(code)]`. -/
def codewordOfCode (code : List Nat) : List CodeEntry :=
  code.enum.map (fun p => { h := p.1, c := p.2, v := 1 })

/-- The codebook record array built from the accepted codes and the gene
names (`zip(codewords, gene_names)`). -/
def synthRecords (codes : List (List Nat)) (gene_names : List String) :
    List CodeRecord :=
  (codes.zip gene_names).map
    (fun p => { gene_name := some p.2, codeword := some (codewordOfCode p.1) })

/-- Source `synthetic_one_hot_codebook`: run the rejection-sampling loop (here with
explicit fuel, since the source's `while` has no bound: `none` means the loop
is still running after `fuel` iterations), then build the codebook through
`from_code_array` with the given dimensions.  `gene_names` stands for the
supplied names or the freshly generated uuid4 identifiers. -/
def synthetic_one_hot_codebook (n_hyb n_channel n_codes : Nat)
    (draws : Nat → List Nat) (fuel : Nat) (gene_names : List String) :
    Option (Except PyErr Codebook) :=
  (synthLoop n_codes draws fuel 0 []).map (fun codes =>
    from_code_array (synthRecords codes gene_names) (some n_hyb) (some n_channel))

/-- The canonical finite set of candidate codes: lists of length `k` with
entries below `n`.  Used to bound the rejection-sampling loop. -/
def allCodes (n : Nat) : Nat → Finset (List Nat)
  | 0 => {[]}
  | k + 1 => (Finset.range n).biUnion (fun c => (allCodes n k).image (fun l => c :: l))

/-- A gene matrix is one-hot per round: in every round exactly one channel
holds value 1 and every other channel holds 0. -/
def OneHotPerRound (mat : NMat) (n_ch n_hyb : Nat) : Prop :=
  ∀ h < n_hyb, ∃ c₀ < n_ch, matGet mat c₀ h = 1 ∧
    ∀ c < n_ch, c ≠ c₀ → matGet mat c h = 0

/-- Shape predicate for gene matrices. -/
def MatShape (mat : NMat) (n_ch n_hyb : Nat) : Prop :=
  mat.length = n_ch ∧ ∀ row ∈ mat, row.length = n_hyb

/-- Apply a whole codeword to one matrix, entry by entry. -/
def applyEntries (mat : NMat) (cw : List CodeEntry) : NMat :=
  cw.foldl (fun acc e => matSet acc e.c e.h e.v) mat

/-- The concatenation of the codewords of all records labelled `g`, in
record order. -/
def entriesFor (g : String) (arr : List CodeRecord) : List CodeEntry :=
  (arr.map (fun r =>
    if r.gene_name.getD "" = g then r.codeword.getD [] else [])).flatten

/-- The gene-label column of a code array. -/
def labels (arr : List CodeRecord) : List String :=
  arr.map (fun r => r.gene_name.getD "")

/-- The value stored at `(c, h)` by the last codeword entry addressing that
cell, if any (reduced to `uint8`). -/
def lastWrite (cw : List CodeEntry) (c h : Nat) : Option Nat :=
  (cw.reverse.find? (fun e => e.c == c && e.h == h)).map (fun e => e.v % 256)

/-- Codes a run of the rejection loop can hold: length `n_hyb`, channels
below `n_channel`. -/
def ValidCode (n_hyb n_channel : Nat) (code : List Nat) : Prop :=
  code.length = n_hyb ∧ ∀ x ∈ code, x < n_channel

end Codebook

/-! ### Per-round maximum-channel decoding -/

namespace Codebook

/-- Source `np.argmax` over a list: index of the first occurrence of the maximum
(0 on the empty list, which the source never hits). -/
def firstArgmax {α : Type} [LinearOrder α] : List α → Nat
  | [] => 0
  | x :: xs => if xs.all (fun y => y ≤ x) then 0 else firstArgmax xs + 1

/-- Source `array.argmax(CH)`: for each round, the first channel index attaining the
round's maximum value, giving the length-`n_hyb` winning-channel vector. -/
def argmaxPerHyb {α : Type} [LinearOrder α] (d : α) (mat : List (List α))
    (n_hyb : Nat) : List Nat :=
  (List.range n_hyb).map (fun h => firstArgmax (mat.map (fun row => row.getD h d)))

/-- The gene of the last code (in stored order) whose winning-channel vector
equals `fv`, or the sentinel `"None"` when no code matches. -/
def lastMatchGene (codeVecs : List (String × List Nat)) (fv : List Nat) : String :=
  ((codeVecs.reverse.find? (fun gc => gc.2 = fv)).map Prod.fst).getD "None"

/-- Source `decode_per_hyb_max`: compute winning-channel vectors for all codes and
all features, initialize every gene to `"None"`, then iterate the codes in
stored order, overwriting the gene of every feature whose vector equals the
code's (`genes[np.where(a[i] == b)[0]] = codes['gene_name'][i]`), so the
last matching code wins. -/
def decode_per_hyb_max (cbCodes : List (String × NMat)) (n_hyb : Nat)
    (feats : List (List (List ℚ))) : List String :=
  let codeVecs := cbCodes.map (fun p => (p.1, argmaxPerHyb (0 : Nat) p.2 n_hyb))
  let featVecs := feats.map (fun m => argmaxPerHyb (0 : ℚ) m n_hyb)
  codeVecs.foldl
    (fun genes gc =>
      (featVecs.zip genes).map (fun q => if q.1 = gc.2 then gc.1 else q.2))
    (featVecs.map (fun _ => "None"))

end Codebook

/-! ### Normalization and metric decoding

Intensity values are rationals; `PFloat` adds the IEEE specials that the
normalization division can produce (`0/0 -> NaN`, `x/0 -> inf` for `x ≠ 0`),
so that `fillna` is modelled faithfully. -/

/-- A floating-point value as produced by the normalizing division. -/
inductive PFloat where
  | nan
  | inf
  | val (q : ℚ)
deriving DecidableEq, Repr

namespace Codebook

/-- IEEE division of an entry by the feature norm. -/
def pdiv (x nrm : ℚ) : PFloat :=
  if nrm = 0 then (if x = 0 then .nan else .inf) else .val (x / nrm)

/-- Source `fillna`: replace NaN with the given value, leave everything else. -/
def fillnaP (c : ℚ) : PFloat → PFloat
  | .nan => .val c
  | y => y

/-- The uniform fill value of `_normalize_features`:
`np.linalg.norm(np.full(n, 1/n), ord=norm_order) / n`, for `n` the product
of the channel and round dimensions.  The norm itself is a parameter
(`np.linalg.norm` with the caller's `ord`). -/
def partitionedIntensity (normf : List ℚ → ℚ) (n : Nat) : ℚ :=
  normf (List.replicate n (1 / (n : ℚ))) / n

/-- Normalize one feature's flattened `(ch, round)` vector: divide every
entry by the vector's norm, then `fillna` with the partitioned intensity. -/
def normalizeVec (normf : List ℚ → ℚ) (n : Nat) (v : List ℚ) : List PFloat :=
  v.map (fun x => fillnaP (partitionedIntensity normf n) (pdiv x (normf v)))

/-- Source `_normalize_features` on the stacked (flattened) feature vectors:
returns the normalized vectors together with the pre-division norms. -/
def _normalize_features (normf : List ℚ → ℚ) (n : Nat)
    (vs : List (List ℚ)) : List (List PFloat) × List ℚ :=
  (vs.map (normalizeVec normf n), vs.map normf)

/-- Index of the first occurrence of the minimum (0 on the empty list). -/
def firstArgmin : List ℚ → Nat
  | [] => 0
  | x :: xs => if xs.all (fun y => x ≤ y) then 0 else firstArgmin xs + 1

/-- Source `_approximate_nearest_code` for one feature: distance to and gene of the
closest normalized code (`NearestNeighbors(n_neighbors=1)`).  The tie-break
among exactly equidistant codes is implementation-defined in the source
(ball tree); the embedding fixes the first minimal index. -/
def nearestCode (metric : List PFloat → List PFloat → ℚ)
    (normCodes : List (String × List PFloat)) (f : List PFloat) : ℚ × String :=
  let dists := normCodes.map (fun c => metric f c.2)
  let j := firstArgmin dists
  (dists.getD j 0, (normCodes.getD j ("", [])).1)

/-- Source `metric_decode` on stacked vectors: normalize intensities and codebook,
find each feature's nearest code, then null the gene of features whose
distance exceeds `max_distance` and, independently, of features whose
pre-normalization norm falls below `min_intensity`.  Returns the per-feature
`(gene, distance)` columns attached to the intensity table.  `n_codes` and
`n_feats` are the `ch × round` products of the codebook and of the intensity
table. -/
def metric_decode (codes : List (String × List ℚ)) (feats : List (List ℚ))
    (max_distance min_intensity : ℚ) (normf : List ℚ → ℚ)
    (metric : List PFloat → List PFloat → ℚ) (n_codes n_feats : Nat) :
    List (String × ℚ) :=
  let norms := (_normalize_features normf n_feats feats).2
  let normFeats := (_normalize_features normf n_feats feats).1
  let normCodes := codes.map (fun p => (p.1, normalizeVec normf n_codes p.2))
  (normFeats.zip norms).map (fun p =>
    let dg := nearestCode metric normCodes p.1
    let g₁ := if dg.1 > max_distance then "None" else dg.2
    let g₂ := if p.2 < min_intensity then "None" else g₁
    (g₂, dg.1))

end Codebook

/-! ### Trace builder (exact-match strategy)

`IntensityTable.zeros` and the `SpotFindingResults` container live outside
the provided sources; they are modelled from the spec's collaborator
contracts (section 6). -/

/-- Modelled from the spec: the per-`(round, channel)` spot table of a
`SpotFindingResults` — only the intensity column feeds the built trace. -/
structure SpotTable where
  intensities : List ℚ
deriving DecidableEq, Repr

/-- Modelled from the spec: `SpotFindingResults`, a mapping keyed by
`(round, channel)` pairs. -/
structure SpotFindingResults where
  tables : List ((Nat × Nat) × SpotTable)
deriving DecidableEq, Repr

namespace SpotFindingResults

/-- Modelled from the spec: the set of round labels present. -/
def round_labels (s : SpotFindingResults) : List Nat :=
  (s.tables.map (fun p => p.1.1)).dedup

/-- Modelled from the spec: the set of channel labels present. -/
def ch_labels (s : SpotFindingResults) : List Nat :=
  (s.tables.map (fun p => p.1.2)).dedup

end SpotFindingResults

/-- A concrete three-key `SpotFindingResults` (rounds and channels `{0, 1}`,
two spots per table) for instantiation. -/
def exSpots : SpotFindingResults :=
  ⟨[((0, 0), ⟨[1, 2]⟩), ((0, 1), ⟨[3, 4]⟩), ((1, 0), ⟨[5, 6]⟩)]⟩

/-- The trace tensor `(feature, ch, round)`, positions indexed by the
positions of the labels in the label lists. -/
abbrev Trace := List (List (List ℚ))

/-- The L1 norm on rational vectors: the `np.linalg.norm(..., ord=1)`
instance of the caller-supplied norm, used to instantiate the norm
parameter on concrete inputs. -/
def L1norm (v : List ℚ) : ℚ := (v.map (fun x => |x|)).sum

/-- Collapse a modelled float to a rational (NaN/inf to 0); only used to
build concrete metrics for instantiation. -/
def pfloatToQ : PFloat → ℚ
  | .val q => q
  | _ => 0

/-- A concrete L1 distance on modelled float vectors, an instance of the
sklearn metric parameter. -/
def metricL1 (a b : List PFloat) : ℚ :=
  ((a.zip b).map (fun q => |pfloatToQ q.1 - pfloatToQ q.2|)).sum

/-- The two-gene example code array of the spec (section 8): `ACTB_human`
with cells `(r0, c3, 1), (r1, c3, 1)` and `ACTB_mouse` with cells
`(r0, c3, 1), (r1, c1, 1)`. -/
def exArr : List CodeRecord :=
  [ { gene_name := some "ACTB_human",
      codeword := some [⟨0, 3, 1⟩, ⟨1, 3, 1⟩] },
    { gene_name := some "ACTB_mouse",
      codeword := some [⟨0, 3, 1⟩, ⟨1, 1, 1⟩] } ]

namespace TraceBuilder

/-- Modelled from the spec: `IntensityTable.zeros` — the all-zero trace
structure over the reference spot table and the label sets. -/
def zerosTrace (n_features n_ch n_rounds : Nat) : Trace :=
  List.replicate n_features (List.replicate n_ch (List.replicate n_rounds 0))

/-- Read trace cell `(feature i, channel position ci, round position ri)`. -/
def cellAt (t : Trace) (i ci ri : Nat) : ℚ :=
  (((t.getD i []).getD ci []).getD ri 0)

/-- Source `intensity_table.loc[dict(c=c, r=r)] = <intensities>`: write the
per-spot intensity column of one `(round, channel)` table into the trace at
channel position `ci` and round position `ri`, one value per feature. -/
def setColumn (t : Trace) (ci ri : Nat) (vals : List ℚ) : Trace :=
  t.mapIdx (fun i row => row.set ci ((row.getD ci []).set ri (vals.getD i 0)))

/-- Shape predicate for trace tensors. -/
def TraceShape (t : Trace) (n_ch n_rd : Nat) : Prop :=
  ∀ row ∈ t, row.length = n_ch ∧ ∀ col ∈ row, col.length = n_rd

/-- The write loop of `build_spot_traces_exact_match`, abstracted over the
label lists. -/
def foldColumns (chs rds : List Nat) (tables : List ((Nat × Nat) × SpotTable))
    (t : Trace) : Trace :=
  tables.foldl
    (fun t p => setColumn t (chs.indexOf p.1.2) (rds.indexOf p.1.1)
      p.2.intensities) t

/-- Source `build_spot_traces_exact_match`: take the `(round 0, channel 0)` table
as the reference spot attributes (`KeyError`, modelled as `none`, when that
key is absent), build the all-zero trace with one feature per reference
spot, then for every `(r, c)` key write that table's intensity column at
the same feature indices. -/
def build_spot_traces_exact_match (s : SpotFindingResults) : Option Trace :=
  (s.tables.find? (fun p => p.1 = (0, 0))).map (fun ref =>
    let chs := s.ch_labels
    let rds := s.round_labels
    let init := zerosTrace ref.2.intensities.length chs.length rds.length
    s.tables.foldl
      (fun t p => setColumn t (chs.indexOf p.1.2) (rds.indexOf p.1.1) p.2.intensities)
      init)

end TraceBuilder

/-! ## Matrix-level lemmas -/

namespace Codebook

/-- Source `List.getD` after an in-range `List.set` at the same index. -/
theorem getD_set_self {α : Type} (l : List α) (i : Nat) (a d : α)
    (h : i < l.length) : (l.set i a).getD i d = a := by
  rw [List.getD_eq_getElem?_getD, List.getElem?_set_self h]
  rfl

/-- Source `List.getD` after `List.set` at a different index. -/
theorem getD_set_ne {α : Type} (l : List α) {i j : Nat} (h : i ≠ j) (a d : α) :
    (l.set i a).getD j d = l.getD j d := by
  rw [List.getD_eq_getElem?_getD, List.getElem?_set_ne h,
    ← List.getD_eq_getElem?_getD]

/-- Source `List.getD` on a replicated list. -/
theorem getD_replicate {α : Type} (n : Nat) (a d : α) (i : Nat) :
    (List.replicate n a).getD i d = if i < n then a else d := by
  rw [List.getD_eq_getElem?_getD, List.getElem?_replicate]
  split <;> rfl

/-- Source `List.getD` out of range yields the default. -/
theorem getD_of_le {α : Type} (l : List α) {i : Nat} (h : l.length ≤ i) (d : α) :
    l.getD i d = d := by
  rw [List.getD_eq_getElem?_getD, List.getElem?_eq_none h]
  rfl

theorem matShape_zerosMat (n_ch n_hyb : Nat) :
    MatShape (zerosMat n_ch n_hyb) n_ch n_hyb := by
  constructor
  · simp [zerosMat]
  · intro row hrow
    simp only [zerosMat, List.mem_replicate] at hrow
    simp [hrow.2]

theorem matGet_zerosMat (n_ch n_hyb c h : Nat) :
    matGet (zerosMat n_ch n_hyb) c h = 0 := by
  unfold matGet zerosMat
  rw [getD_replicate]
  split
  · rw [getD_replicate]
    split <;> rfl
  · rfl

theorem matShape_matSet {mat : NMat} {n_ch n_hyb : Nat}
    (hs : MatShape mat n_ch n_hyb) (c h v : Nat) :
    MatShape (matSet mat c h v) n_ch n_hyb := by
  obtain ⟨hlen, hrow⟩ := hs
  rcases Nat.lt_or_ge c mat.length with hc | hc
  · constructor
    · simpa [matSet] using hlen
    · intro row hmem
      unfold matSet at hmem
      rcases List.mem_or_eq_of_mem_set hmem with hm | he
      · exact hrow row hm
      · subst he
        rw [List.length_set, List.getD_eq_getElem _ _ hc]
        exact hrow _ (List.getElem_mem hc)
  · unfold matSet
    rw [List.set_eq_of_length_le hc]
    exact ⟨hlen, hrow⟩

theorem matGet_matSet {mat : NMat} {n_ch n_hyb : Nat}
    (hs : MatShape mat n_ch n_hyb) {c h : Nat} (hc : c < n_ch) (hh : h < n_hyb)
    (v c' h' : Nat) :
    matGet (matSet mat c h v) c' h' =
      if c' = c ∧ h' = h then v % 256 else matGet mat c' h' := by
  obtain ⟨hlen, hrow⟩ := hs
  have hclen : c < mat.length := hlen ▸ hc
  have hrl : (mat.getD c []).length = n_hyb := by
    rw [List.getD_eq_getElem _ _ hclen]
    exact hrow _ (List.getElem_mem hclen)
  unfold matGet matSet
  by_cases hcc : c' = c
  · subst hcc
    rw [getD_set_self _ _ _ _ hclen]
    by_cases hhh : h' = h
    · subst hhh
      rw [getD_set_self _ _ _ _ (by omega)]
      simp
    · simp only [hhh, and_false, if_false]
      rw [getD_set_ne _ (fun hx => hhh hx.symm)]
  · simp only [hcc, false_and, if_false]
    rw [getD_set_ne _ (fun hx => hcc hx.symm)]

/-- Reading out of the declared shape yields the default 0. -/
theorem matGet_of_ge {mat : NMat} {n_ch n_hyb : Nat}
    (hs : MatShape mat n_ch n_hyb) {c h : Nat} (hor : n_ch ≤ c ∨ n_hyb ≤ h) :
    matGet mat c h = 0 := by
  obtain ⟨hlen, hrow⟩ := hs
  unfold matGet
  rcases Nat.lt_or_ge c mat.length with hc | hc
  · rw [List.getD_eq_getElem _ _ hc]
    have hr := hrow _ (List.getElem_mem hc)
    rcases hor with h1 | h1
    · omega
    · exact getD_of_le _ (by omega) 0
  · rw [getD_of_le _ (by omega) []]
    rfl

/-! ## Characterization of the fill loop -/

theorem matShape_applyEntries {mat : NMat} {n_ch n_hyb : Nat}
    (hs : MatShape mat n_ch n_hyb) (cw : List CodeEntry) :
    MatShape (applyEntries mat cw) n_ch n_hyb := by
  induction cw generalizing mat with
  | nil => exact hs
  | cons e tl ih => exact ih (matShape_matSet hs e.c e.h e.v)

theorem applyEntries_append (mat : NMat) (cw₁ cw₂ : List CodeEntry) :
    applyEntries mat (cw₁ ++ cw₂) = applyEntries (applyEntries mat cw₁) cw₂ :=
  List.foldl_append _ _ _ _

theorem matGet_applyEntries {mat : NMat} {n_ch n_hyb : Nat}
    (hs : MatShape mat n_ch n_hyb) {cw : List CodeEntry}
    (hcw : ∀ e ∈ cw, e.c < n_ch ∧ e.h < n_hyb) (c h : Nat) :
    matGet (applyEntries mat cw) c h = (lastWrite cw c h).getD (matGet mat c h) := by
  induction cw generalizing mat with
  | nil => rfl
  | cons e tl ih =>
    have he := hcw e (List.mem_cons_self e tl)
    have htl : ∀ x ∈ tl, x.c < n_ch ∧ x.h < n_hyb :=
      fun x hx => hcw x (List.mem_cons_of_mem _ hx)
    have step : applyEntries mat (e :: tl) = applyEntries (matSet mat e.c e.h e.v) tl := rfl
    rw [step, ih (matShape_matSet hs e.c e.h e.v) htl]
    unfold lastWrite
    rw [List.reverse_cons, List.find?_append]
    cases hfind : tl.reverse.find? (fun x => x.c == c && x.h == h) with
    | some x =>
      rw [Option.or_some]
      rfl
    | none =>
      rw [Option.none_or, matGet_matSet hs he.1 he.2]
      cases hpe : (e.c == c && e.h == h) with
      | true =>
        rw [Bool.and_eq_true, beq_iff_eq, beq_iff_eq] at hpe
        rw [List.find?_cons_of_pos _ (by simp [hpe.1, hpe.2]),
          if_pos ⟨hpe.1.symm, hpe.2.symm⟩]
        rfl
      | false =>
        have hcond : ¬(c = e.c ∧ h = e.h) := by
          intro hcc
          rw [hcc.1, hcc.2] at hpe
          simp at hpe
        rw [List.find?_cons_of_neg _ (by simp [hpe]), if_neg hcond]
        rfl

theorem setCellAll_getElem? (codes : List (String × NMat)) (g : String)
    (c h v : Nat) (i : Nat) :
    (setCellAll codes g c h v)[i]? =
      codes[i]?.map
        (fun p => if p.1 = g then (p.1, matSet p.2 c h v) else p) := by
  unfold setCellAll
  rw [List.getElem?_map]

/-- One record's inner fill loop, row by row. -/
theorem foldEntries_getElem? (cw : List CodeEntry) (g : String)
    (codes : List (String × NMat)) (i : Nat) :
    (cw.foldl (fun acc e => setCellAll acc g e.c e.h e.v) codes)[i]? =
      codes[i]?.map
        (fun p => (p.1, if p.1 = g then applyEntries p.2 cw else p.2)) := by
  induction cw generalizing codes with
  | nil =>
    rw [List.foldl_nil]
    cases codes[i]? with
    | none => rfl
    | some p => simp [applyEntries]
  | cons e tl ih =>
    rw [List.foldl_cons, ih, setCellAll_getElem?]
    cases codes[i]? with
    | none => rfl
    | some p =>
      simp only [Option.map_some']
      by_cases hg : p.1 = g
      · simp [hg, applyEntries]
      · simp [hg]

theorem applyRecord_getElem? (codes : List (String × NMat)) (r : CodeRecord)
    (i : Nat) :
    (applyRecord codes r)[i]? =
      codes[i]?.map (fun p =>
        (p.1, if p.1 = r.gene_name.getD ""
          then applyEntries p.2 (r.codeword.getD []) else p.2)) :=
  foldEntries_getElem? _ _ _ _

theorem fillAll_getElem? (arr : List CodeRecord) (codes : List (String × NMat))
    (i : Nat) :
    (fillAll codes arr)[i]? =
      codes[i]?.map (fun p => (p.1, applyEntries p.2 (entriesFor p.1 arr))) := by
  induction arr generalizing codes with
  | nil =>
    show codes[i]? = _
    cases codes[i]? with
    | none => rfl
    | some p => simp [entriesFor, applyEntries]
  | cons r rest ih =>
    show (fillAll (applyRecord codes r) rest)[i]? = _
    rw [ih, applyRecord_getElem?]
    cases codes[i]? with
    | none => rfl
    | some p =>
      simp only [Option.map_some']
      have hfor : entriesFor p.1 (r :: rest) =
          (if r.gene_name.getD "" = p.1 then r.codeword.getD [] else []) ++
            entriesFor p.1 rest := by
        simp [entriesFor]
      rw [hfor]
      by_cases hg : p.1 = r.gene_name.getD ""
      · rw [if_pos hg, if_pos hg.symm, applyEntries_append]
      · rw [if_neg hg, if_neg (fun hx => hg hx.symm), List.nil_append]

theorem setCellAll_length (codes : List (String × NMat)) (g : String)
    (c h v : Nat) : (setCellAll codes g c h v).length = codes.length := by
  simp [setCellAll]

theorem foldEntries_length (cw : List CodeEntry) (g : String)
    (codes : List (String × NMat)) :
    (cw.foldl (fun acc e => setCellAll acc g e.c e.h e.v) codes).length =
      codes.length := by
  induction cw generalizing codes with
  | nil => rfl
  | cons e tl ih => rw [List.foldl_cons, ih, setCellAll_length]

theorem applyRecord_length (codes : List (String × NMat)) (r : CodeRecord) :
    (applyRecord codes r).length = codes.length :=
  foldEntries_length _ _ _

theorem fillAll_length (codes : List (String × NMat)) (arr : List CodeRecord) :
    (fillAll codes arr).length = codes.length := by
  induction arr generalizing codes with
  | nil => rfl
  | cons r rest ih =>
    show (fillAll (applyRecord codes r) rest).length = _
    rw [ih, applyRecord_length]

theorem entriesFor_eq_nil {g : String} {arr : List CodeRecord}
    (h : ∀ r ∈ arr, r.gene_name.getD "" ≠ g) : entriesFor g arr = [] := by
  induction arr with
  | nil => rfl
  | cons r rest ih =>
    have : entriesFor g (r :: rest) =
        (if r.gene_name.getD "" = g then r.codeword.getD [] else []) ++
          entriesFor g rest := by simp [entriesFor]
    rw [this, if_neg (h r (List.mem_cons_self r rest)),
      ih (fun x hx => h x (List.mem_cons_of_mem _ hx)), List.nil_append]

theorem entriesFor_of_nodup {arr : List CodeRecord}
    (hnd : (labels arr).Nodup) {i : Nat} (hi : i < arr.length) :
    entriesFor (arr[i].gene_name.getD "") arr = arr[i].codeword.getD [] := by
  induction arr generalizing i with
  | nil => simp at hi
  | cons r rest ih =>
    have hnd' : (labels rest).Nodup := (List.nodup_cons.mp hnd).2
    have hhead : r.gene_name.getD "" ∉ labels rest := (List.nodup_cons.mp hnd).1
    cases i with
    | zero =>
      have hz : entriesFor ((r :: rest)[0].gene_name.getD "") (r :: rest) =
          r.codeword.getD [] ++
            entriesFor (r.gene_name.getD "") rest := by
        simp [entriesFor]
      rw [hz, entriesFor_eq_nil (fun x hx hcontra => by
        exact hhead (hcontra ▸ List.mem_map_of_mem _ hx)), List.append_nil]
      rfl
    | succ j =>
      have hj : j < rest.length := by simpa using hi
      have hmem : (rest[j].gene_name.getD "") ∈ labels rest :=
        List.mem_map_of_mem _ (List.getElem_mem hj)
      have hne : r.gene_name.getD "" ≠ rest[j].gene_name.getD "" :=
        fun hx => hhead (hx ▸ hmem)
      have hstep : entriesFor ((r :: rest)[j + 1].gene_name.getD "") (r :: rest) =
          (if r.gene_name.getD "" = rest[j].gene_name.getD ""
            then r.codeword.getD [] else []) ++
            entriesFor (rest[j].gene_name.getD "") rest := by
        simp [entriesFor]
      rw [hstep, if_neg hne, List.nil_append]
      exact ih hnd' hj

/-! ## Behaviour of `from_code_array` -/

theorem missingFields_eq_nil_iff (r : CodeRecord) :
    missingFields r = [] ↔ r.codeword.isSome ∧ r.gene_name.isSome := by
  unfold missingFields
  cases r.codeword <;> cases r.gene_name <;> simp

theorem validateRecords_ok {arr : List CodeRecord}
    (h : ∀ r ∈ arr, missingFields r = []) : validateRecords arr = .ok () := by
  induction arr with
  | nil => rfl
  | cons r rest ih =>
    unfold validateRecords
    rw [if_neg (by simp [h r (List.mem_cons_self r rest)])]
    exact ih (fun x hx => h x (List.mem_cons_of_mem _ hx))

theorem validateRecords_ok_inv {arr : List CodeRecord}
    (h : validateRecords arr = .ok ()) : ∀ r ∈ arr, missingFields r = [] := by
  induction arr with
  | nil => simp
  | cons r rest ih =>
    unfold validateRecords at h
    by_cases hr : missingFields r = []
    · rw [if_neg (by simp [hr])] at h
      intro x hx
      rcases List.mem_cons.mp hx with he | hm
      · exact he ▸ hr
      · exact ih h x hm
    · rw [if_pos (by simpa using hr)] at h
      simp at h

theorem inferMax_isOk {arr : List CodeRecord}
    (h : ∀ r ∈ arr, (r.codeword).isSome) :
    ∃ mh mc, inferMax arr = .ok (mh, mc) := by
  induction arr with
  | nil => exact ⟨0, 0, rfl⟩
  | cons r rest ih =>
    obtain ⟨mh, mc, hok⟩ := ih (fun x hx => h x (List.mem_cons_of_mem _ hx))
    have hr := h r (List.mem_cons_self r rest)
    obtain ⟨cw, hcw⟩ := Option.isSome_iff_exists.mp hr
    refine ⟨max (cw.foldl (fun acc e => max acc e.h) 0) mh,
      max (cw.foldl (fun acc e => max acc e.c) 0) mc, ?_⟩
    unfold inferMax
    rw [hcw, hok]
    simp only [Bind.bind, Except.bind]

theorem inferMax_error {arr : List CodeRecord}
    (h : ∃ r ∈ arr, r.codeword = none) :
    inferMax arr = .error (.keyError "codeword") := by
  induction arr with
  | nil => simp at h
  | cons r rest ih =>
    unfold inferMax
    cases hcw : r.codeword with
    | none => rfl
    | some cw =>
      obtain ⟨x, hx, hxe⟩ := h
      rcases List.mem_cons.mp hx with he | hm
      · rw [he, hcw] at hxe; cases hxe
      · rw [ih ⟨x, hm, hxe⟩]
        rfl

/-- Fold bound: running max stays below a strict bound on all inputs. -/
theorem foldl_max_lt {f : CodeEntry → Nat} {H : Nat} :
    ∀ (cw : List CodeEntry) (a : Nat), a < H → (∀ e ∈ cw, f e < H) →
      cw.foldl (fun acc e => max acc (f e)) a < H := by
  intro cw
  induction cw with
  | nil => intro a ha _; exact ha
  | cons e tl ih =>
    intro a ha hb
    rw [List.foldl_cons]
    exact ih _ (max_lt ha (hb e (List.mem_cons_self e tl)))
      (fun x hx => hb x (List.mem_cons_of_mem _ hx))

/-- The running max never decreases below its starting value. -/
theorem base_le_foldl_max {f : CodeEntry → Nat} :
    ∀ (cw : List CodeEntry) (a : Nat),
      a ≤ cw.foldl (fun acc e => max acc (f e)) a := by
  intro cw
  induction cw with
  | nil => intro a; exact le_refl a
  | cons x tl ih =>
    intro a
    rw [List.foldl_cons]
    exact le_trans (le_max_left a (f x)) (ih _)

/-- Fold lower bound: the running max dominates every input. -/
theorem le_foldl_max {f : CodeEntry → Nat} :
    ∀ (cw : List CodeEntry) (a : Nat) {e}, e ∈ cw →
      f e ≤ cw.foldl (fun acc e => max acc (f e)) a := by
  intro cw
  induction cw with
  | nil => intro a e he; simp at he
  | cons x tl ih =>
    intro a e he
    rw [List.foldl_cons]
    rcases List.mem_cons.mp he with hx | hm
    · subst hx
      exact le_trans (le_max_right a (f e)) (base_le_foldl_max tl _)
    · exact ih _ hm

theorem inferMax_lt {arr : List CodeRecord} {mh mc H C : Nat}
    (hok : inferMax arr = .ok (mh, mc)) (hH : 0 < H) (hC : 0 < C)
    (hb : ∀ r ∈ arr, ∀ e ∈ r.codeword.getD [], e.h < H ∧ e.c < C) :
    mh < H ∧ mc < C := by
  induction arr generalizing mh mc with
  | nil =>
    unfold inferMax at hok
    injection hok with hok
    injection hok with h1 h2
    omega
  | cons r rest ih =>
    unfold inferMax at hok
    cases hcw : r.codeword with
    | none => rw [hcw] at hok; cases hok
    | some cw =>
      rw [hcw] at hok
      cases hrest : inferMax rest with
      | error e =>
        rw [hrest] at hok
        simp only [Bind.bind, Except.bind] at hok
        exact (Except.noConfusion hok)
      | ok p =>
        obtain ⟨mh0, mc0⟩ := p
        rw [hrest] at hok
        simp only [Bind.bind, Except.bind] at hok
        injection hok with hok
        injection hok with h1 h2
        have hrec := ih hrest (fun x hx => hb x (List.mem_cons_of_mem _ hx))
        have hcwb : ∀ e ∈ cw, e.h < H ∧ e.c < C := by
          have := hb r (List.mem_cons_self r rest)
          rw [hcw] at this
          exact this
        have hfh : cw.foldl (fun acc e => max acc e.h) 0 < H :=
          foldl_max_lt cw 0 hH (fun e he => (hcwb e he).1)
        have hfc : cw.foldl (fun acc e => max acc e.c) 0 < C :=
          foldl_max_lt cw 0 hC (fun e he => (hcwb e he).2)
        constructor
        · rw [← h1]; exact max_lt hfh hrec.1
        · rw [← h2]; exact max_lt hfc hrec.2

theorem inferMax_le {arr : List CodeRecord} {mh mc : Nat}
    (hok : inferMax arr = .ok (mh, mc)) {r : CodeRecord} (hr : r ∈ arr)
    {e : CodeEntry} (he : e ∈ r.codeword.getD []) : e.h ≤ mh ∧ e.c ≤ mc := by
  induction arr generalizing mh mc with
  | nil => simp at hr
  | cons r' rest ih =>
    unfold inferMax at hok
    cases hcw : r'.codeword with
    | none => rw [hcw] at hok; cases hok
    | some cw =>
      rw [hcw] at hok
      cases hrest : inferMax rest with
      | error er =>
        rw [hrest] at hok
        simp only [Bind.bind, Except.bind] at hok
        exact (Except.noConfusion hok)
      | ok p =>
        obtain ⟨mh0, mc0⟩ := p
        rw [hrest] at hok
        simp only [Bind.bind, Except.bind] at hok
        injection hok with hok
        injection hok with h1 h2
        rcases List.mem_cons.mp hr with hre | hrm
        · subst hre
          rw [hcw] at he
          constructor
          · rw [← h1]
            exact le_trans (le_foldl_max cw 0 he) (le_max_left _ _)
          · rw [← h2]
            exact le_trans (le_foldl_max cw 0 he) (le_max_left _ _)
        · have := ih hrest hrm
          omega

/-- Attainment: the inferred maxima are 0 or realized by some entry. -/
theorem foldl_max_attained {f : CodeEntry → Nat} :
    ∀ (cw : List CodeEntry) (a : Nat),
      cw.foldl (fun acc e => max acc (f e)) a = a ∨
        ∃ e ∈ cw, f e = cw.foldl (fun acc e => max acc (f e)) a := by
  intro cw
  induction cw with
  | nil => intro a; exact Or.inl rfl
  | cons x tl ih =>
    intro a
    rw [List.foldl_cons]
    rcases ih (max a (f x)) with heq | ⟨e, he, hfe⟩
    · rcases max_choice a (f x) with hm | hm
      · exact Or.inl (by rw [heq, hm])
      · exact Or.inr ⟨x, List.mem_cons_self x tl, by rw [heq, hm]⟩
    · exact Or.inr ⟨e, List.mem_cons_of_mem _ he, hfe⟩

theorem inferMax_attained {arr : List CodeRecord} {mh mc : Nat}
    (hok : inferMax arr = .ok (mh, mc)) :
    (mh = 0 ∨ ∃ r ∈ arr, ∃ e ∈ r.codeword.getD [], e.h = mh) ∧
      (mc = 0 ∨ ∃ r ∈ arr, ∃ e ∈ r.codeword.getD [], e.c = mc) := by
  induction arr generalizing mh mc with
  | nil =>
    unfold inferMax at hok
    injection hok with hok
    injection hok with h1 h2
    exact ⟨Or.inl h1.symm, Or.inl h2.symm⟩
  | cons r rest ih =>
    unfold inferMax at hok
    cases hcw : r.codeword with
    | none => rw [hcw] at hok; cases hok
    | some cw =>
      rw [hcw] at hok
      cases hrest : inferMax rest with
      | error er =>
        rw [hrest] at hok
        simp only [Bind.bind, Except.bind] at hok
        exact (Except.noConfusion hok)
      | ok p =>
        obtain ⟨mh0, mc0⟩ := p
        rw [hrest] at hok
        simp only [Bind.bind, Except.bind] at hok
        injection hok with hok
        injection hok with h1 h2
        obtain ⟨ih1, ih2⟩ := ih hrest
        constructor
        · rcases max_choice (cw.foldl (fun acc e => max acc e.h) 0) mh0 with hm | hm
          · rw [h1] at hm
            rcases foldl_max_attained (f := fun e => e.h) cw 0 with hz | ⟨e, he, hfe⟩
            · exact Or.inl (by omega)
            · refine Or.inr ⟨r, List.mem_cons_self r rest, e, ?_, by omega⟩
              rw [hcw]; exact he
          · rw [h1] at hm
            rcases ih1 with hz | ⟨x, hx, e, he, hfe⟩
            · exact Or.inl (by omega)
            · exact Or.inr ⟨x, List.mem_cons_of_mem _ hx, e, he, by omega⟩
        · rcases max_choice (cw.foldl (fun acc e => max acc e.c) 0) mc0 with hm | hm
          · rw [h2] at hm
            rcases foldl_max_attained (f := fun e => e.c) cw 0 with hz | ⟨e, he, hfe⟩
            · exact Or.inl (by omega)
            · refine Or.inr ⟨r, List.mem_cons_self r rest, e, ?_, by omega⟩
              rw [hcw]; exact he
          · rw [h2] at hm
            rcases ih2 with hz | ⟨x, hx, e, he, hfe⟩
            · exact Or.inl (by omega)
            · exact Or.inr ⟨x, List.mem_cons_of_mem _ hx, e, he, by omega⟩

/-- Success equation for `from_code_array`. -/
theorem from_code_array_eq_ok {arr : List CodeRecord} {mh mc : Nat}
    (hinf : inferMax arr = .ok (mh, mc)) (nh nc : Option Nat)
    (hh : mh + 1 ≤ nh.getD (mh + 1)) (hc : mc + 1 ≤ nc.getD (mc + 1))
    (hval : ∀ r ∈ arr, missingFields r = []) :
    from_code_array arr nh nc = .ok
      { n_ch := nc.getD (mc + 1), n_hyb := nh.getD (mh + 1),
        codes := fillAll
          ((_empty_codebook (labels arr) (nc.getD (mc + 1))
            (nh.getD (mh + 1))).codes) arr } := by
  unfold from_code_array
  rw [hinf]
  simp only [Bind.bind, Except.bind]
  rw [if_neg (not_lt.mpr hh), if_neg (not_lt.mpr hc), validateRecords_ok hval]
  rfl

/-- Failure equation: hybridization range check. -/
theorem from_code_array_eq_error_hyb {arr : List CodeRecord} {mh mc nhv : Nat}
    (hinf : inferMax arr = .ok (mh, mc)) (nc : Option Nat) (hgt : nhv < mh + 1) :
    from_code_array arr (some nhv) nc = .error (.hybValueError (mh + 1) nhv) := by
  unfold from_code_array
  rw [hinf]
  simp only [Bind.bind, Except.bind, Option.getD_some]
  rw [if_pos hgt]

/-- Failure equation: channel range check (reached only when the
hybridization check passes). -/
theorem from_code_array_eq_error_ch {arr : List CodeRecord} {mh mc ncv : Nat}
    (hinf : inferMax arr = .ok (mh, mc)) (nh : Option Nat)
    (hle : mh + 1 ≤ nh.getD (mh + 1)) (hgt : ncv < mc + 1) :
    from_code_array arr nh (some ncv) = .error (.chValueError (mc + 1) ncv) := by
  unfold from_code_array
  rw [hinf]
  simp only [Bind.bind, Except.bind, Option.getD_some]
  rw [if_neg (not_lt.mpr hle), if_pos hgt]

/-- Inversion of a successful `from_code_array`. -/
theorem from_code_array_ok_inv {arr : List CodeRecord} {nh nc : Option Nat}
    {cb : Codebook} (h : from_code_array arr nh nc = .ok cb) :
    ∃ mh mc, inferMax arr = .ok (mh, mc) ∧
      (∀ r ∈ arr, missingFields r = []) ∧
      mh + 1 ≤ nh.getD (mh + 1) ∧ mc + 1 ≤ nc.getD (mc + 1) ∧
      cb = Codebook.mk (nc.getD (mc + 1)) (nh.getD (mh + 1))
        (fillAll
          ((_empty_codebook (labels arr) (nc.getD (mc + 1))
            (nh.getD (mh + 1))).codes) arr) := by
  unfold from_code_array at h
  cases hinf : inferMax arr with
  | error e =>
    rw [hinf] at h
    simp only [Bind.bind, Except.bind] at h
    exact (Except.noConfusion h)
  | ok p =>
    obtain ⟨mh, mc⟩ := p
    rw [hinf] at h
    simp only [Bind.bind, Except.bind] at h
    by_cases h1 : mh + 1 > nh.getD (mh + 1)
    · rw [if_pos h1] at h
      exact (Except.noConfusion h)
    · rw [if_neg h1] at h
      by_cases h2 : mc + 1 > nc.getD (mc + 1)
      · rw [if_pos h2] at h
        exact (Except.noConfusion h)
      · rw [if_neg h2] at h
        cases hval : validateRecords arr with
        | error e =>
          rw [hval] at h
          simp only [Bind.bind, Except.bind] at h
          exact (Except.noConfusion h)
        | ok u =>
          cases u
          rw [hval] at h
          simp only [Bind.bind, Except.bind] at h
          injection h with h
          exact ⟨mh, mc, rfl, validateRecords_ok_inv hval, by omega, by omega,
            h.symm⟩

theorem fillAll_map_fst (codes : List (String × NMat)) (arr : List CodeRecord) :
    (fillAll codes arr).map Prod.fst = codes.map Prod.fst := by
  apply List.ext_getElem?
  intro i
  rw [List.getElem?_map, List.getElem?_map, fillAll_getElem?]
  cases codes[i]? <;> rfl

theorem empty_codebook_map_fst (names : List String) (n_ch n_hyb : Nat) :
    ((_empty_codebook names n_ch n_hyb).codes).map Prod.fst = names := by
  simp [_empty_codebook, List.map_map]
  exact List.map_id names

/-! ## Claim theorems: construction and validation -/

/-- Claim **C10**: for every code array accepted by `from_code_array`, the gene
axis of the resulting codebook lists the gene labels in exactly the order
the records appear in the input array (every accepted record carries a gene
label, and the label column is reproduced verbatim), so the stored code
order that `decode_per_hyb_max`'s tie-break relies on is the input record
order. -/
theorem c10_gene_axis_is_input_order {arr : List CodeRecord}
    {nh nc : Option Nat} {cb : Codebook}
    (h : from_code_array arr nh nc = .ok cb) :
    cb.codes.map Prod.fst = labels arr ∧ ∀ r ∈ arr, r.gene_name.isSome := by
  obtain ⟨mh, mc, hinf, hval, hh, hc, hcb⟩ := from_code_array_ok_inv h
  constructor
  · rw [hcb]
    show (fillAll _ arr).map Prod.fst = labels arr
    rw [fillAll_map_fst, empty_codebook_map_fst]
  · intro r hr
    exact ((missingFields_eq_nil_iff r).mp (hval r hr)).2

/-- Witness for C10 on the spec's two-gene example array. -/
theorem c10_gene_axis_is_input_order_witness :
    ((from_code_array exArr none none).toOption.getD
        (Codebook.mk 0 0 [])).codes.map Prod.fst = labels exArr ∧
      ∀ r ∈ exArr, r.gene_name.isSome := by
  have h : from_code_array exArr none none = .ok
      ((from_code_array exArr none none).toOption.getD (Codebook.mk 0 0 [])) := by
    rfl
  exact c10_gene_axis_is_input_order h

/-- Claim **C5** (code bug): a record lacking the `codeword` field makes
`from_code_array` fail with a `KeyError` raised by the dimension-inference
loop, not with the descriptive missing-field `ValueError` of the validation
block (which lists `codeword` among its required fields but is unreachable
for this input); a record lacking only the gene field does reach the
validation block and fails with the descriptive error. -/
theorem c5_missing_field_behaviour :
    from_code_array
        [{ gene_name := some "ACTB_human", codeword := none }] none none =
      .error (.keyError "codeword") ∧
    from_code_array
        [{ gene_name := none, codeword := some [⟨0, 3, 1⟩] }] none none =
      .error (.missingFieldsError ["gene_name"]) := by
  exact ⟨rfl, rfl⟩

/-- Claim **C6**: with well-formed records, (a) a codeword entry whose round index
reaches a supplied `n_hyb` makes construction fail with the validation error
that names the hybridization dimension; (b) an entry whose channel index
reaches a supplied `n_ch` (with the round check passing) fails with the
validation error naming the channel dimension; (c) when neither bound is
supplied, the dimensions are inferred as the maximum observed indices plus
one and construction succeeds. -/
theorem c6_dimension_validation {arr : List CodeRecord}
    (hfields : ∀ r ∈ arr, r.codeword.isSome ∧ r.gene_name.isSome) :
    (∀ (nhv : Nat) (nc : Option Nat),
      (∃ r ∈ arr, ∃ e ∈ r.codeword.getD [], nhv ≤ e.h) →
      ∃ req, nhv < req ∧
        from_code_array arr (some nhv) nc = .error (.hybValueError req nhv)) ∧
    (∀ ncv : Nat,
      (∃ r ∈ arr, ∃ e ∈ r.codeword.getD [], ncv ≤ e.c) →
      ∃ req, ncv < req ∧
        from_code_array arr none (some ncv) = .error (.chValueError req ncv)) ∧
    (∃ mh mc : Nat, inferMax arr = .ok (mh, mc) ∧
      (∀ r ∈ arr, ∀ e ∈ r.codeword.getD [], e.h ≤ mh ∧ e.c ≤ mc) ∧
      (mh = 0 ∨ ∃ r ∈ arr, ∃ e ∈ r.codeword.getD [], e.h = mh) ∧
      (mc = 0 ∨ ∃ r ∈ arr, ∃ e ∈ r.codeword.getD [], e.c = mc) ∧
      ∃ cb, from_code_array arr none none = .ok cb ∧
        cb.n_hyb = mh + 1 ∧ cb.n_ch = mc + 1) := by
  obtain ⟨mh, mc, hinf⟩ := inferMax_isOk (fun r hr => (hfields r hr).1)
  refine ⟨?_, ?_, ?_⟩
  · rintro nhv nc ⟨r, hr, e, he, hge⟩
    have hle := inferMax_le hinf hr he
    exact ⟨mh + 1, by omega, from_code_array_eq_error_hyb hinf nc (by omega)⟩
  · rintro ncv ⟨r, hr, e, he, hge⟩
    have hle := inferMax_le hinf hr he
    exact ⟨mc + 1, by omega,
      from_code_array_eq_error_ch hinf none (by simp) (by omega)⟩
  · refine ⟨mh, mc, hinf, fun r hr e he => inferMax_le hinf hr he,
      (inferMax_attained hinf).1, (inferMax_attained hinf).2, ?_⟩
    refine ⟨_, from_code_array_eq_ok hinf none none (by simp) (by simp)
      (fun r hr => (missingFields_eq_nil_iff r).mpr (hfields r hr)), rfl, rfl⟩

/-! ### Round trip (C4) -/

/-- Membership in a serialized codeword: exactly the in-range non-zero
cells, carrying their stored values. -/
theorem mem_toJsonCodeword {mat : NMat} {n_ch n_hyb : Nat} {e : CodeEntry} :
    e ∈ toJsonCodeword mat n_ch n_hyb ↔
      e.c < n_ch ∧ e.h < n_hyb ∧ matGet mat e.c e.h ≠ 0 ∧
        e.v = matGet mat e.c e.h := by
  simp only [toJsonCodeword, List.mem_flatMap, List.mem_filterMap,
    List.mem_range]
  constructor
  · rintro ⟨c, hc, h, hh, he⟩
    split at he
    · injection he with he
      subst he
      exact ⟨hc, hh, by assumption, rfl⟩
    · cases he
  · rintro ⟨hc, hh, hnz, hv⟩
    refine ⟨e.c, hc, e.h, hh, ?_⟩
    rw [if_pos hnz]
    obtain ⟨h0, c0, v0⟩ := e
    simp only at hv ⊢
    rw [hv]

/-- The last (indeed, only) write a serialized codeword performs at a given
cell. -/
theorem lastWrite_toJsonCodeword {mat : NMat} {n_ch n_hyb : Nat} (c h : Nat) :
    lastWrite (toJsonCodeword mat n_ch n_hyb) c h =
      if c < n_ch ∧ h < n_hyb ∧ matGet mat c h ≠ 0
      then some (matGet mat c h % 256) else none := by
  unfold lastWrite
  by_cases hcond : c < n_ch ∧ h < n_hyb ∧ matGet mat c h ≠ 0
  · rw [if_pos hcond]
    cases hfind : (toJsonCodeword mat n_ch n_hyb).reverse.find?
        (fun e => e.c == c && e.h == h) with
    | none =>
      exfalso
      have hmem : (⟨h, c, matGet mat c h⟩ : CodeEntry) ∈
          (toJsonCodeword mat n_ch n_hyb).reverse := by
        rw [List.mem_reverse, mem_toJsonCodeword]
        exact ⟨hcond.1, hcond.2.1, hcond.2.2, rfl⟩
      have := List.find?_eq_none.mp hfind _ hmem
      simp at this
    | some x =>
      have hpx := List.find?_some hfind
      rw [Bool.and_eq_true, beq_iff_eq, beq_iff_eq] at hpx
      have hxmem : x ∈ toJsonCodeword mat n_ch n_hyb :=
        List.mem_reverse.mp (List.mem_of_find?_eq_some hfind)
      have hx := mem_toJsonCodeword.mp hxmem
      rw [Option.map_some']
      rw [hx.2.2.2, hpx.1, hpx.2]
  · rw [if_neg hcond]
    have hnone : (toJsonCodeword mat n_ch n_hyb).reverse.find?
        (fun e => e.c == c && e.h == h) = none := by
      rw [List.find?_eq_none]
      intro x hxmem hpx
      rw [Bool.and_eq_true, beq_iff_eq, beq_iff_eq] at hpx
      have hx := mem_toJsonCodeword.mp (List.mem_reverse.mp hxmem)
      exact hcond ⟨hpx.1 ▸ hx.1, hpx.2 ▸ hx.2.1, by
        rw [← hpx.1, ← hpx.2]; exact hx.2.2.1⟩
    rw [hnone]
    rfl

/-- Values stored in a well-formed codebook fit in `uint8`. -/
theorem matGet_lt_256 {cb : Codebook} (hwf : cb.WellFormed)
    {p : String × NMat} (hp : p ∈ cb.codes) (c h : Nat) :
    matGet p.2 c h < 256 := by
  obtain ⟨hlen, hrows⟩ := hwf p hp
  unfold matGet
  rcases Nat.lt_or_ge c p.2.length with hc | hc
  · rw [List.getD_eq_getElem _ _ hc]
    have hrow := hrows _ (List.getElem_mem hc)
    rcases Nat.lt_or_ge h (p.2[c]).length with hh | hh
    · rw [List.getD_eq_getElem _ _ hh]
      exact hrow.2 _ (List.getElem_mem hh)
    · rw [getD_of_le _ hh]
      omega
  · rw [getD_of_le _ (by omega) []]
    simp

/-- The label column of `to_json` output is the codebook's gene axis. -/
theorem labels_to_json (cb : Codebook) :
    labels (to_json cb) = cb.codes.map Prod.fst := by
  simp [labels, to_json, List.map_map]

/-- Every serialized record carries both fields. -/
theorem to_json_fields {cb : Codebook} {r : CodeRecord} (hr : r ∈ to_json cb) :
    r.codeword.isSome ∧ r.gene_name.isSome := by
  simp only [to_json, List.mem_map] at hr
  obtain ⟨p, _hp, hpr⟩ := hr
  rw [← hpr]
  exact ⟨rfl, rfl⟩

/-- Row-level description of a successfully constructed codebook when the
gene labels are unique: row `i` is record `i`'s codeword applied to the
all-zero matrix of the resulting shape. -/
theorem from_code_array_row {arr : List CodeRecord} {nh nc : Option Nat}
    {cb : Codebook} (h : from_code_array arr nh nc = .ok cb)
    (hnd : (labels arr).Nodup) (i : Nat) (hi : i < arr.length) :
    cb.codes[i]? = some (arr[i].gene_name.getD "",
      applyEntries (zerosMat cb.n_ch cb.n_hyb) (arr[i].codeword.getD [])) := by
  obtain ⟨mh, mc, hinf, hval, hh, hc, hcb⟩ := from_code_array_ok_inv h
  subst hcb
  rw [fillAll_getElem?]
  have hlab : (labels arr)[i]? = some (arr[i].gene_name.getD "") := by
    unfold labels
    rw [List.getElem?_map, List.getElem?_eq_getElem hi]
    rfl
  have hempty : ((_empty_codebook (labels arr) (nc.getD (mc + 1))
      (nh.getD (mh + 1))).codes)[i]? =
      some (arr[i].gene_name.getD "",
        zerosMat (nc.getD (mc + 1)) (nh.getD (mh + 1))) := by
    unfold _empty_codebook
    rw [List.getElem?_map, hlab]
    rfl
  rw [hempty, Option.map_some']
  have hent := entriesFor_of_nodup hnd hi
  simp only [hent]

theorem from_code_array_codes_length {arr : List CodeRecord}
    {nh nc : Option Nat} {cb : Codebook}
    (h : from_code_array arr nh nc = .ok cb) :
    cb.codes.length = arr.length := by
  obtain ⟨mh, mc, hinf, hval, hh, hc, hcb⟩ := from_code_array_ok_inv h
  subst hcb
  show (fillAll _ arr).length = arr.length
  rw [fillAll_length]
  simp [_empty_codebook, labels]

/-- Serialization always reconstructs: `to_json` output satisfies every
check of `from_code_array`. -/
theorem from_code_array_to_json_isOk (cb : Codebook) :
    ∃ cb2, from_code_array (to_json cb) none none = .ok cb2 := by
  obtain ⟨mh, mc, hinf⟩ := inferMax_isOk (fun r hr => (to_json_fields hr).1)
  exact ⟨_, from_code_array_eq_ok hinf none none (by simp) (by simp)
    (fun r hr => (missingFields_eq_nil_iff r).mpr
      ⟨(to_json_fields hr).1, (to_json_fields hr).2⟩)⟩

/-- Cell-level description of the reconstructed codebook: row `i` keeps the
original gene label, and its value at `(c, h)` is the original value inside
the original shape and 0 outside it. -/
theorem roundtrip_cell {cb cb2 : Codebook} (hwf : cb.WellFormed)
    (hnd : (cb.codes.map Prod.fst).Nodup)
    (hok : from_code_array (to_json cb) none none = .ok cb2)
    (i : Nat) (hi : i < cb.codes.length) (c h : Nat) :
    ∃ p : String × NMat, cb2.codes[i]? = some p ∧ p.1 = cb.codes[i].1 ∧
      matGet p.2 c h =
        if c < cb.n_ch ∧ h < cb.n_hyb then matGet cb.codes[i].2 c h else 0 := by
  have hnd' : (labels (to_json cb)).Nodup := by
    rw [labels_to_json]; exact hnd
  have hi' : i < (to_json cb).length := by
    simpa [to_json] using hi
  have harr : (to_json cb)[i] =
      { gene_name := some cb.codes[i].1,
        codeword := some (toJsonCodeword cb.codes[i].2 cb.n_ch cb.n_hyb) } := by
    unfold to_json
    rw [List.getElem_map]
  have hrow := from_code_array_row hok hnd' i hi'
  rw [harr] at hrow
  simp only [Option.getD_some] at hrow
  refine ⟨_, hrow, rfl, ?_⟩
  -- entries of the serialized codeword stay below the inferred shape
  obtain ⟨mh, mc, hinf, _hval, _h1, _h2, hcb2⟩ := from_code_array_ok_inv hok
  have hmem_rec : (to_json cb)[i] ∈ to_json cb := List.getElem_mem hi'
  have hcw : ∀ e ∈ toJsonCodeword cb.codes[i].2 cb.n_ch cb.n_hyb,
      e.c < cb2.n_ch ∧ e.h < cb2.n_hyb := by
    intro e he
    have := inferMax_le hinf hmem_rec (by rw [harr]; exact he)
    rw [hcb2]
    simp only [Option.getD_none]
    omega
  rw [matGet_applyEntries (matShape_zerosMat cb2.n_ch cb2.n_hyb) hcw,
    lastWrite_toJsonCodeword, matGet_zerosMat]
  by_cases hrange : c < cb.n_ch ∧ h < cb.n_hyb
  · rw [if_pos hrange]
    by_cases hnz : matGet cb.codes[i].2 c h ≠ 0
    · rw [if_pos ⟨hrange.1, hrange.2, hnz⟩]
      simp only [Option.getD_some]
      exact Nat.mod_eq_of_lt
        (matGet_lt_256 hwf (List.getElem_mem hi) c h)
    · push_neg at hnz
      rw [if_neg (by simp [hnz]), hnz]
      rfl
  · rw [if_neg hrange, if_neg (by tauto)]
    rfl

/-- Claim **C4**: serializing a codebook with `to_json` (which emits exactly the
non-zero `(round, channel, value)` cells per gene) and rebuilding it with
`from_code_array` succeeds and yields a codebook with exactly the same set
of (gene label, non-zero cell position, value) triples.  The codebook is
assumed well-formed (declared shape, `uint8` values, the invariant
`from_code_array` itself establishes) with unique gene labels (the
CodebookModel invariant; with duplicated labels the source's label-based
`loc` reads are ill-defined). -/
theorem c4_to_json_roundtrip {cb : Codebook} (hwf : cb.WellFormed)
    (hnd : (cb.codes.map Prod.fst).Nodup) :
    ∃ cb2, from_code_array (to_json cb) none none = .ok cb2 ∧
      ∀ g c h v, (cb2.hasTriple g c h v ↔ cb.hasTriple g c h v) := by
  obtain ⟨cb2, hok⟩ := from_code_array_to_json_isOk cb
  refine ⟨cb2, hok, ?_⟩
  intro g c h v
  have hlen2 : cb2.codes.length = cb.codes.length := by
    rw [from_code_array_codes_length hok]
    simp [to_json]
  constructor
  · rintro ⟨hv, p, hp, hpg, hpv⟩
    obtain ⟨i, hilen, hip⟩ := List.mem_iff_getElem.mp hp
    have hi : i < cb.codes.length := by omega
    obtain ⟨q, hq, hq1, hq2⟩ := roundtrip_cell hwf hnd hok i hi c h
    rw [List.getElem?_eq_getElem hilen, hip] at hq
    injection hq with hq
    subst hq
    rw [hpv] at hq2
    by_cases hrange : c < cb.n_ch ∧ h < cb.n_hyb
    · rw [if_pos hrange] at hq2
      exact ⟨hv, cb.codes[i], List.getElem_mem hi, by rw [← hpg, hq1],
        hq2.symm⟩
    · rw [if_neg hrange] at hq2
      exact absurd hq2 hv
  · rintro ⟨hv, p, hp, hpg, hpv⟩
    obtain ⟨i, hi, hip⟩ := List.mem_iff_getElem.mp hp
    have hrange : c < cb.n_ch ∧ h < cb.n_hyb := by
      by_contra hr
      have hshape : MatShape p.2 cb.n_ch cb.n_hyb := by
        obtain ⟨hl, hr'⟩ := hwf p hp
        exact ⟨hl, fun row hrow => (hr' row hrow).1⟩
      have := matGet_of_ge hshape (by omega : cb.n_ch ≤ c ∨ cb.n_hyb ≤ h)
      rw [hpv] at this
      exact hv this
    obtain ⟨q, hq, hq1, hq2⟩ := roundtrip_cell hwf hnd hok i hi c h
    rw [if_pos hrange, hip, hpv] at hq2
    exact ⟨hv, q, List.getElem?_mem hq, by rw [hq1, hip, hpg], hq2⟩

/-- Witness for C4 on the spec's two-gene example codebook. -/
theorem c4_to_json_roundtrip_witness :
    ∃ cb2, from_code_array
        (to_json (Codebook.mk 4 2
          [("ACTB_human", [[0, 0], [0, 0], [0, 0], [1, 1]]),
           ("ACTB_mouse", [[0, 0], [0, 1], [0, 0], [1, 0]])])) none none =
        .ok cb2 ∧
      ∀ g c h v, (cb2.hasTriple g c h v ↔
        (Codebook.mk 4 2
          [("ACTB_human", [[0, 0], [0, 0], [0, 0], [1, 1]]),
           ("ACTB_mouse", [[0, 0], [0, 1], [0, 0], [1, 0]])]).hasTriple
          g c h v) :=
  c4_to_json_roundtrip (by decide) (by decide)

/-! ### Synthetic one-hot generation (C7, C8) -/

theorem mem_allCodes {n k : Nat} {l : List Nat} :
    l ∈ allCodes n k ↔ l.length = k ∧ ∀ x ∈ l, x < n := by
  induction k generalizing l with
  | zero =>
    unfold allCodes
    simp only [Finset.mem_singleton]
    constructor
    · rintro rfl
      exact ⟨rfl, by simp⟩
    · rintro ⟨hl, _⟩
      exact List.length_eq_zero.mp hl
  | succ k ih =>
    unfold allCodes
    simp only [Finset.mem_biUnion, Finset.mem_range, Finset.mem_image]
    constructor
    · rintro ⟨c, hc, t, ht, rfl⟩
      obtain ⟨htl, htv⟩ := ih.mp ht
      refine ⟨by simp [htl], ?_⟩
      intro x hx
      rcases List.mem_cons.mp hx with rfl | hm
      · exact hc
      · exact htv x hm
    · rintro ⟨hl, hv⟩
      cases l with
      | nil => simp at hl
      | cons c t =>
        refine ⟨c, hv c (List.mem_cons_self c t), t, ih.mpr ⟨by simpa using hl,
          fun x hx => hv x (List.mem_cons_of_mem _ hx)⟩, rfl⟩

theorem card_allCodes (n k : Nat) : (allCodes n k).card ≤ n ^ k := by
  induction k with
  | zero => simp [allCodes]
  | succ k ih =>
    unfold allCodes
    calc ((Finset.range n).biUnion
          (fun c => (allCodes n k).image (fun l => c :: l))).card
        ≤ ∑ c ∈ Finset.range n, ((allCodes n k).image (fun l => c :: l)).card :=
          Finset.card_biUnion_le
      _ ≤ ∑ _c ∈ Finset.range n, (allCodes n k).card :=
          Finset.sum_le_sum (fun c _ => Finset.card_image_le)
      _ = n * (allCodes n k).card := by
          rw [Finset.sum_const, Finset.card_range, smul_eq_mul]
      _ ≤ n * n ^ k := Nat.mul_le_mul_left n ih
      _ = n ^ (k + 1) := (pow_succ n k).symm ▸ (Nat.mul_comm _ _)

/-- A duplicate-free list of valid codes can never exceed the capacity
`n_channel ^ n_hyb`. -/
theorem nodup_valid_length_le {n_hyb n_channel : Nat} {l : List (List Nat)}
    (hnd : l.Nodup) (hval : ∀ x ∈ l, ValidCode n_hyb n_channel x) :
    l.length ≤ n_channel ^ n_hyb := by
  calc l.length = l.toFinset.card := (List.toFinset_card_of_nodup hnd).symm
    _ ≤ (allCodes n_channel n_hyb).card :=
      Finset.card_le_card (fun x hx =>
        mem_allCodes.mpr (hval x (List.mem_toFinset.mp hx)))
    _ ≤ n_channel ^ n_hyb := card_allCodes n_channel n_hyb

/-- Invariant-carrying description of a completed rejection loop. -/
theorem synthLoop_post {n_hyb n_channel n_codes : Nat} {draws : Nat → List Nat}
    (hdraws : ∀ k, ValidCode n_hyb n_channel (draws k)) :
    ∀ (fuel k : Nat) (acc codes : List (List Nat)), acc.Nodup →
      (∀ x ∈ acc, ValidCode n_hyb n_channel x) → acc.length ≤ n_codes →
      synthLoop n_codes draws fuel k acc = some codes →
      codes.Nodup ∧ (∀ x ∈ codes, ValidCode n_hyb n_channel x) ∧
        codes.length = n_codes := by
  intro fuel
  induction fuel with
  | zero =>
    intro k acc codes _ _ _ h
    cases h
  | succ fuel ih =>
    intro k acc codes hnd hval hle h
    unfold synthLoop at h
    by_cases hlt : acc.length < n_codes
    · rw [if_pos hlt] at h
      by_cases hmem : draws k ∈ acc
      · rw [if_pos hmem] at h
        exact ih (k + 1) acc codes hnd hval hle h
      · rw [if_neg hmem] at h
        refine ih (k + 1) (acc ++ [draws k]) codes ?_ ?_ ?_ h
        · rw [List.nodup_append]
          exact ⟨hnd, List.nodup_singleton _, by simpa using hmem⟩
        · intro x hx
          rcases List.mem_append.mp hx with hm | hm
          · exact hval x hm
          · rw [List.mem_singleton.mp hm]
            exact hdraws k
        · rw [List.length_append, List.length_singleton]
          omega
    · rw [if_neg hlt] at h
      injection h with h
      subst h
      exact ⟨hnd, hval, by omega⟩

/-- Claim **C7** (code bug): when more codes are requested than
`n_channel ^ n_hyb` distinct candidates exist, the source's rejection loop
`while len(codes) < n_codes` can never make its guard false — for every
random stream of valid draws and every iteration budget the loop is still
running (`synthLoop` returns `none`), and `synthetic_one_hot_codebook`
never produces any result, let alone an explicit capacity error (no such
`raise` exists in the source). -/
theorem c7_capacity_loop_never_terminates {n_hyb n_channel n_codes : Nat}
    {draws : Nat → List Nat}
    (hdraws : ∀ k, ValidCode n_hyb n_channel (draws k))
    (hcap : n_channel ^ n_hyb < n_codes) :
    (∀ (fuel k : Nat) (acc : List (List Nat)), acc.Nodup →
      (∀ x ∈ acc, ValidCode n_hyb n_channel x) →
      synthLoop n_codes draws fuel k acc = none) ∧
    ∀ (fuel : Nat) (gene_names : List String),
      synthetic_one_hot_codebook n_hyb n_channel n_codes draws fuel
        gene_names = none := by
  have hloop : ∀ (fuel k : Nat) (acc : List (List Nat)), acc.Nodup →
      (∀ x ∈ acc, ValidCode n_hyb n_channel x) →
      synthLoop n_codes draws fuel k acc = none := by
    intro fuel
    induction fuel with
    | zero => intro k acc _ _; rfl
    | succ fuel ih =>
      intro k acc hnd hval
      have hlt : acc.length < n_codes := by
        have := nodup_valid_length_le hnd hval
        omega
      unfold synthLoop
      rw [if_pos hlt]
      by_cases hmem : draws k ∈ acc
      · rw [if_pos hmem]
        exact ih (k + 1) acc hnd hval
      · rw [if_neg hmem]
        refine ih (k + 1) (acc ++ [draws k]) ?_ ?_
        · rw [List.nodup_append]
          exact ⟨hnd, List.nodup_singleton _, by simpa using hmem⟩
        · intro x hx
          rcases List.mem_append.mp hx with hm | hm
          · exact hval x hm
          · rw [List.mem_singleton.mp hm]
            exact hdraws k
  refine ⟨hloop, fun fuel gene_names => ?_⟩
  unfold synthetic_one_hot_codebook
  rw [hloop fuel 0 [] List.nodup_nil (by simp)]
  rfl

/-- Membership in a one-hot codeword: one entry per round, channel taken
from the drawn tuple, value 1. -/
theorem mem_codewordOfCode {code : List Nat} {e : CodeEntry} :
    e ∈ codewordOfCode code ↔
      ∃ hh : e.h < code.length, e.c = code[e.h] ∧ e.v = 1 := by
  unfold codewordOfCode
  rw [List.mem_map]
  constructor
  · rintro ⟨p, hp, rfl⟩
    rw [List.mem_enum_iff_getElem?] at hp
    have hlt : p.1 < code.length := (List.getElem?_eq_some_iff.mp hp).1
    refine ⟨hlt, ?_, rfl⟩
    have := List.getElem?_eq_getElem hlt
    rw [this] at hp
    injection hp with hp
    simp [hp]
  · rintro ⟨hh, hc, hv⟩
    refine ⟨(e.h, code[e.h]), ?_, ?_⟩
    · rw [List.mem_enum_iff_getElem?]
      simp [List.get?_eq_getElem?, List.getElem?_eq_getElem hh]
    · obtain ⟨h0, c0, v0⟩ := e
      simp only at hc hv ⊢
      rw [hc, hv]

/-- The one write a one-hot codeword performs at cell `(c, h)`. -/
theorem lastWrite_codewordOfCode (code : List Nat) (c h : Nat) :
    lastWrite (codewordOfCode code) c h =
      if code[h]? = some c then some 1 else none := by
  unfold lastWrite
  by_cases hcond : code[h]? = some c
  · rw [if_pos hcond]
    have hh : h < code.length := (List.getElem?_eq_some_iff.mp hcond).1
    have hch : code[h] = c := by
      have := List.getElem?_eq_getElem hh
      rw [this] at hcond
      injection hcond
    cases hfind : (codewordOfCode code).reverse.find?
        (fun e => e.c == c && e.h == h) with
    | none =>
      exfalso
      have hmem : (⟨h, c, 1⟩ : CodeEntry) ∈ (codewordOfCode code).reverse := by
        rw [List.mem_reverse, mem_codewordOfCode]
        exact ⟨hh, hch.symm, rfl⟩
      have := List.find?_eq_none.mp hfind _ hmem
      simp at this
    | some x =>
      have hpx := List.find?_some hfind
      rw [Bool.and_eq_true, beq_iff_eq, beq_iff_eq] at hpx
      obtain ⟨hhx, hcx, hvx⟩ :=
        mem_codewordOfCode.mp (List.mem_reverse.mp (List.mem_of_find?_eq_some hfind))
      rw [Option.map_some', hvx]
  · rw [if_neg hcond]
    have hnone : (codewordOfCode code).reverse.find?
        (fun e => e.c == c && e.h == h) = none := by
      rw [List.find?_eq_none]
      intro x hxmem hpx
      rw [Bool.and_eq_true, beq_iff_eq, beq_iff_eq] at hpx
      obtain ⟨hhx, hcx, _⟩ :=
        mem_codewordOfCode.mp (List.mem_reverse.mp hxmem)
      apply hcond
      rw [← hpx.2, List.getElem?_eq_getElem hhx, ← hpx.1, hcx]
    rw [hnone]
    rfl

/-- Cell values of the matrix a one-hot codeword builds from zeros. -/
theorem matGet_oneHotRow {code : List Nat} {n_ch n_hyb : Nat}
    (hval : ValidCode n_hyb n_ch code) (c h : Nat) :
    matGet (applyEntries (zerosMat n_ch n_hyb) (codewordOfCode code)) c h =
      if code[h]? = some c then 1 else 0 := by
  have hcw : ∀ e ∈ codewordOfCode code, e.c < n_ch ∧ e.h < n_hyb := by
    intro e he
    obtain ⟨hh, hc, _⟩ := mem_codewordOfCode.mp he
    exact ⟨hc ▸ hval.2 _ (List.getElem_mem hh), hval.1 ▸ hh⟩
  rw [matGet_applyEntries (matShape_zerosMat n_ch n_hyb) hcw,
    lastWrite_codewordOfCode, matGet_zerosMat]
  by_cases hcond : code[h]? = some c
  · rw [if_pos hcond, if_pos hcond]
    rfl
  · rw [if_neg hcond, if_neg hcond]
    rfl

/-- Two distinct valid codes build distinct one-hot matrices. -/
theorem oneHotRow_inj {n_ch n_hyb : Nat} {x y : List Nat}
    (hx : ValidCode n_hyb n_ch x) (hy : ValidCode n_hyb n_ch y)
    (heq : applyEntries (zerosMat n_ch n_hyb) (codewordOfCode x) =
      applyEntries (zerosMat n_ch n_hyb) (codewordOfCode y)) : x = y := by
  apply List.ext_getElem (by rw [hx.1, hy.1])
  intro i hi hi'
  have h1 : matGet (applyEntries (zerosMat n_ch n_hyb) (codewordOfCode x))
      x[i] i = 1 := by
    rw [matGet_oneHotRow hx, if_pos (List.getElem?_eq_getElem hi)]
  rw [heq, matGet_oneHotRow hy] at h1
  by_cases hc : y[i]? = some x[i]
  · rw [List.getElem?_eq_getElem hi'] at hc
    injection hc with hc
    exact hc.symm
  · rw [if_neg hc] at h1
    cases h1

theorem synthRecords_labels {codes : List (List Nat)}
    {gene_names : List String} (hlen : codes.length = gene_names.length) :
    labels (synthRecords codes gene_names) = gene_names := by
  unfold labels synthRecords
  rw [List.map_map]
  have : ((fun r : CodeRecord => r.gene_name.getD "") ∘
      fun p : List Nat × String =>
        { gene_name := some p.2, codeword := some (codewordOfCode p.1) }) =
      Prod.snd := rfl
  rw [this]
  exact List.map_snd_zip _ _ (le_of_eq hlen.symm)

theorem synthRecords_fields {codes : List (List Nat)}
    {gene_names : List String} :
    ∀ r ∈ synthRecords codes gene_names,
      r.codeword.isSome ∧ r.gene_name.isSome := by
  intro r hr
  simp only [synthRecords, List.mem_map] at hr
  obtain ⟨p, _hp, hpr⟩ := hr
  rw [← hpr]
  exact ⟨rfl, rfl⟩

theorem synthRecords_entries {n_hyb n_channel : Nat} {codes : List (List Nat)}
    {gene_names : List String}
    (hcodes : ∀ x ∈ codes, ValidCode n_hyb n_channel x) :
    ∀ r ∈ synthRecords codes gene_names, ∀ e ∈ r.codeword.getD [],
      e.h < n_hyb ∧ e.c < n_channel := by
  intro r hr e he
  simp only [synthRecords, List.mem_map] at hr
  obtain ⟨p, hp, hpr⟩ := hr
  rw [← hpr] at he
  simp only [Option.getD_some] at he
  have hcode := hcodes p.1 (List.of_mem_zip hp).1
  obtain ⟨hh, hc, _⟩ := mem_codewordOfCode.mp he
  exact ⟨hcode.1 ▸ hh, hc ▸ hcode.2 _ (List.getElem_mem hh)⟩

/-- Claim **C8**: whenever the rejection loop completes with `n_codes` requested
codes (`n_codes ≤ n_channel ^ n_hyb` is the only regime where it can),
`synthetic_one_hot_codebook` returns a codebook of shape
`(n_codes, n_channel, n_hyb)` whose gene matrices are pairwise distinct and
one-hot in every round: exactly one channel per round holds 1, all other
cells hold 0.  Gene names (supplied, or the generated uuid4 identifiers)
are assumed distinct and of length `n_codes`, as the source's `assert`
requires. -/
theorem c8_synthetic_one_hot_codes {n_hyb n_channel n_codes : Nat}
    {draws : Nat → List Nat} {fuel : Nat} {codes : List (List Nat)}
    {gene_names : List String}
    (hdraws : ∀ k, ValidCode n_hyb n_channel (draws k))
    (hloop : synthLoop n_codes draws fuel 0 [] = some codes)
    (hg : gene_names.length = n_codes) (hgnd : gene_names.Nodup)
    (hhyb : 1 ≤ n_hyb) (hch : 1 ≤ n_channel) :
    ∃ cb : Codebook,
      synthetic_one_hot_codebook n_hyb n_channel n_codes draws fuel gene_names
          = some (.ok cb) ∧
      cb.n_ch = n_channel ∧ cb.n_hyb = n_hyb ∧
      cb.codes.length = n_codes ∧
      (∀ p ∈ cb.codes, OneHotPerRound p.2 n_channel n_hyb) ∧
      (cb.codes.map Prod.snd).Nodup := by
  obtain ⟨hcnd, hcval, hclen⟩ := synthLoop_post hdraws fuel 0 [] codes
    List.nodup_nil (by simp) (by simp) hloop
  have hlenz : codes.length = gene_names.length := by omega
  obtain ⟨mh, mc, hinf⟩ :=
    inferMax_isOk (fun r hr => (synthRecords_fields r hr).1)
  obtain ⟨hmh, hmc⟩ := inferMax_lt hinf hhyb hch
    (synthRecords_entries hcval)
  have hok := from_code_array_eq_ok hinf (some n_hyb) (some n_channel)
    (by simp only [Option.getD_some]; omega)
    (by simp only [Option.getD_some]; omega)
    (fun r hr => (missingFields_eq_nil_iff r).mpr
      ⟨(synthRecords_fields r hr).1, (synthRecords_fields r hr).2⟩)
  obtain ⟨cb, hokcb⟩ : ∃ cb, from_code_array (synthRecords codes gene_names)
      (some n_hyb) (some n_channel) = .ok cb := ⟨_, hok⟩
  clear hok
  obtain ⟨mh', mc', hinf', _hval', _hh', _hc', hcb⟩ :=
    from_code_array_ok_inv hokcb
  have hnch : cb.n_ch = n_channel := by simp [hcb]
  have hnhyb : cb.n_hyb = n_hyb := by simp [hcb]
  have hreclen : (synthRecords codes gene_names).length = n_codes := by
    simp only [synthRecords, List.length_map, List.length_zip]
    omega
  have hlablen : cb.codes.length = n_codes := by
    rw [from_code_array_codes_length hokcb, hreclen]
  have hlabnd : (labels (synthRecords codes gene_names)).Nodup := by
    rw [synthRecords_labels hlenz]
    exact hgnd
  have hrow : ∀ i (hig : i < gene_names.length) (hic : i < codes.length),
      cb.codes[i]? = some (gene_names[i],
        applyEntries (zerosMat n_channel n_hyb)
          (codewordOfCode codes[i])) := by
    intro i hig hic
    have hi' : i < (synthRecords codes gene_names).length := by omega
    have hthis := from_code_array_row hokcb hlabnd i hi'
    have hreci : (synthRecords codes gene_names)[i] =
        { gene_name := some gene_names[i],
          codeword := some (codewordOfCode codes[i]) } := by
      unfold synthRecords
      rw [List.getElem_map, List.getElem_zip]
    rw [hreci] at hthis
    simp only [Option.getD_some] at hthis
    rw [hnch, hnhyb] at hthis
    exact hthis
  have hmain : synthetic_one_hot_codebook n_hyb n_channel n_codes draws fuel
      gene_names = some (.ok cb) := by
    unfold synthetic_one_hot_codebook
    rw [hloop]
    simp only [Option.map_some']
    rw [hokcb]
  have honehot : ∀ p ∈ cb.codes, OneHotPerRound p.2 n_channel n_hyb := by
    intro p hp
    obtain ⟨i, hi, hip⟩ := List.mem_iff_getElem.mp hp
    have hig : i < gene_names.length := by omega
    have hic : i < codes.length := by omega
    have hr := hrow i hig hic
    rw [List.getElem?_eq_getElem hi, hip] at hr
    injection hr with hr
    have hvalid := hcval _ (List.getElem_mem hic)
    intro h hh
    have hhlen : h < codes[i].length := by
      rw [hvalid.1]; exact hh
    refine ⟨codes[i][h], hvalid.2 _ (List.getElem_mem hhlen),
      ?_, ?_⟩
    · rw [hr]
      simp only
      rw [matGet_oneHotRow hvalid, if_pos (List.getElem?_eq_getElem hhlen)]
    · intro c _hc hne
      rw [hr]
      simp only
      rw [matGet_oneHotRow hvalid, if_neg]
      intro hcontra
      rw [List.getElem?_eq_getElem hhlen] at hcontra
      injection hcontra with hcontra
      exact hne hcontra.symm
  have hsnd : cb.codes.map Prod.snd = codes.map
      (fun code => applyEntries (zerosMat n_channel n_hyb)
        (codewordOfCode code)) := by
    apply List.ext_getElem?
    intro i
    rw [List.getElem?_map, List.getElem?_map]
    by_cases hi : i < n_codes
    · rw [hrow i (by omega) (by omega),
        List.getElem?_eq_getElem (show i < codes.length by omega)]
      rfl
    · rw [List.getElem?_eq_none (by omega), List.getElem?_eq_none (by omega)]
      rfl
  refine ⟨cb, hmain, hnch, hnhyb, hlablen, honehot, ?_⟩
  rw [hsnd]
  exact hcnd.map_on (fun x hx y hy heq =>
    oneHotRow_inj (hcval x hx) (hcval y hy) heq)

/-- Witness for C8: the spec's scenario `n_hyb = 2, n_channel = 3,
n_codes = 2` with a concrete random stream that draws `[0, 0]` then
`[1, 0]`. -/
theorem c8_synthetic_one_hot_codes_witness :
    ∃ cb : Codebook,
      synthetic_one_hot_codebook 2 3 2
          (fun k => if k = 0 then [0, 0] else [1, 0]) 3 ["g1", "g2"] =
        some (.ok cb) ∧
      cb.n_ch = 3 ∧ cb.n_hyb = 2 ∧ cb.codes.length = 2 ∧
      (∀ p ∈ cb.codes, OneHotPerRound p.2 3 2) ∧
      (cb.codes.map Prod.snd).Nodup :=
  c8_synthetic_one_hot_codes
    (fun k => by
      by_cases hk : k = 0 <;> simp [ValidCode, hk])
    (show synthLoop 2 _ 3 0 [] = some [[0, 0], [1, 0]] by rfl)
    rfl (by decide) (by decide) (by decide)

/-- Witness for C7: one round, one channel, two requested codes — the only
candidate code is `[0]`, and the loop never finishes in (for instance) 37
iterations. -/
theorem c7_capacity_loop_never_terminates_witness :
    synthLoop 2 (fun _ => [0]) 37 0 [] = none ∧
      synthetic_one_hot_codebook 1 1 2 (fun _ => [0]) 37 ["a", "b"] = none := by
  have h := @c7_capacity_loop_never_terminates 1 1 2 (fun _ => [0])
    (fun k => ⟨rfl, by simp⟩) (by norm_num)
  exact ⟨h.1 37 0 [] List.nodup_nil (by simp), h.2 37 ["a", "b"]⟩

/-- Witness for C6 on the spec's example array: `n_hyb = 1` is rejected
naming the hybridization dimension, `n_ch = 2` is rejected naming the
channel dimension, and with no bounds supplied the inferred shape is
`n_hyb = 2`, `n_ch = 4`. -/
theorem c6_dimension_validation_witness :
    (∃ req, 1 < req ∧
      from_code_array exArr (some 1) none = .error (.hybValueError req 1)) ∧
    (∃ req, 2 < req ∧
      from_code_array exArr none (some 2) = .error (.chValueError req 2)) ∧
    (∃ cb, from_code_array exArr none none = .ok cb ∧
      cb.n_hyb = 2 ∧ cb.n_ch = 4) := by
  obtain ⟨h1, h2, h3⟩ := @c6_dimension_validation exArr (by decide)
  refine ⟨h1 1 none ⟨exArr[1], by decide, ⟨1, 1, 1⟩, by decide, by decide⟩,
    h2 2 ⟨exArr[0], by decide, ⟨0, 3, 1⟩, by decide, by decide⟩, ?_⟩
  obtain ⟨mh, mc, hinf, _hb, _ha1, _ha2, cb, hok, hhyb, hch⟩ := h3
  have hmh : mh = 1 ∧ mc = 3 := by
    have : inferMax exArr = .ok (1, 3) := by rfl
    rw [this] at hinf
    injection hinf with hinf
    injection hinf with ha hb
    exact ⟨ha.symm, hb.symm⟩
  exact ⟨cb, hok, by omega, by omega⟩

/-! ### Per-round maximum-channel decoding (C2) -/

theorem decode_fold_length (codeVecs : List (String × List Nat))
    (featVecs : List (List Nat)) :
    (codeVecs.foldl
      (fun genes gc =>
        (featVecs.zip genes).map (fun q => if q.1 = gc.2 then gc.1 else q.2))
      (featVecs.map (fun _ => "None"))).length = featVecs.length := by
  induction codeVecs using List.reverseRecOn with
  | nil => rw [List.foldl_nil, List.length_map]
  | append_singleton l gc ih =>
    rw [List.foldl_append, List.foldl_cons, List.foldl_nil, List.length_map,
      List.length_zip, ih]
    omega

theorem decode_fold_getElem? (codeVecs : List (String × List Nat))
    (featVecs : List (List Nat)) (i : Nat) :
    (codeVecs.foldl
      (fun genes gc =>
        (featVecs.zip genes).map (fun q => if q.1 = gc.2 then gc.1 else q.2))
      (featVecs.map (fun _ => "None")))[i]? =
      (featVecs[i]?).map (fun fv => lastMatchGene codeVecs fv) := by
  induction codeVecs using List.reverseRecOn with
  | nil =>
    rw [List.foldl_nil, List.getElem?_map]
    cases featVecs[i]? <;> rfl
  | append_singleton l gc ih =>
    rw [List.foldl_append, List.foldl_cons, List.foldl_nil, List.getElem?_map]
    cases hf : featVecs[i]? with
    | none =>
      have hge : featVecs.length ≤ i := by
        by_contra hlt
        rw [List.getElem?_eq_getElem (by omega)] at hf
        cases hf
      rw [List.getElem?_eq_none (by rw [List.length_zip, decode_fold_length]; omega)]
      rfl
    | some fv =>
      have hlt : i < featVecs.length := (List.getElem?_eq_some_iff.mp hf).1
      have hfv : featVecs[i] = fv := by
        rw [List.getElem?_eq_getElem hlt] at hf
        injection hf
      have hlt2 : i < (l.foldl
          (fun genes gc =>
            (featVecs.zip genes).map (fun q => if q.1 = gc.2 then gc.1 else q.2))
          (featVecs.map (fun _ => "None"))).length := by
        rw [decode_fold_length]; exact hlt
      have hfold : (l.foldl
          (fun genes gc =>
            (featVecs.zip genes).map (fun q => if q.1 = gc.2 then gc.1 else q.2))
          (featVecs.map (fun _ => "None")))[i] = lastMatchGene l fv := by
        have h := ih
        rw [List.getElem?_eq_getElem hlt2, List.getElem?_eq_getElem hlt, hfv,
          Option.map_some'] at h
        injection h
      rw [List.getElem?_eq_getElem
        (by rw [List.length_zip, decode_fold_length]; omega), List.getElem_zip,
        Option.map_some', Option.map_some']
      simp only
      rw [hfv, hfold]
      unfold lastMatchGene
      rw [List.reverse_append, List.reverse_singleton, List.singleton_append]
      by_cases hgc : gc.2 = fv
      · rw [List.find?_cons_of_pos _ (by simpa using hgc), if_pos hgc.symm]
        rfl
      · rw [List.find?_cons_of_neg _ (by simpa using hgc),
          if_neg (fun hx => hgc hx.symm)]

theorem decode_per_hyb_max_getElem? (cbCodes : List (String × NMat))
    (n_hyb : Nat) (feats : List (List (List ℚ))) (i : Nat) :
    (decode_per_hyb_max cbCodes n_hyb feats)[i]? =
      (feats[i]?).map (fun m =>
        lastMatchGene (cbCodes.map (fun p => (p.1, argmaxPerHyb (0 : Nat) p.2 n_hyb)))
          (argmaxPerHyb (0 : ℚ) m n_hyb)) := by
  simp only [decode_per_hyb_max]
  rw [decode_fold_getElem?, List.getElem?_map]
  cases feats[i]? <;> rfl

theorem lastMatchGene_ne_none_iff {codeVecs : List (String × List Nat)}
    {fv : List Nat} (hNone : ∀ gc ∈ codeVecs, gc.1 ≠ "None") :
    lastMatchGene codeVecs fv ≠ "None" ↔ ∃ gc ∈ codeVecs, gc.2 = fv := by
  unfold lastMatchGene
  cases hfind : codeVecs.reverse.find? (fun gc => gc.2 = fv) with
  | none =>
    simp only [Option.map_none', Option.getD_none, ne_eq, not_true_eq_false,
      false_iff]
    rintro ⟨gc, hgc, hmatch⟩
    have := List.find?_eq_none.mp hfind gc (List.mem_reverse.mpr hgc)
    simp [hmatch] at this
  | some gc =>
    have hmem : gc ∈ codeVecs := List.mem_reverse.mp (List.mem_of_find?_eq_some hfind)
    have hmatch : gc.2 = fv := by
      have := List.find?_some hfind
      simpa using this
    simp only [Option.map_some', Option.getD_some]
    exact ⟨fun _ => ⟨gc, hmem, hmatch⟩, fun _ => hNone gc hmem⟩

/-- Claim **C2**: `decode_per_hyb_max` labels every feature (the output has one
gene per feature); each feature's label is the gene of the *last* code in
stored order whose per-round argmax-channel vector equals the feature's
(`"None"` when no code matches); and, provided no gene is itself named
`"None"`, a real gene is assigned if and only if some code's argmax-channel
vector equals the feature's at every round. -/
theorem c2_decode_per_hyb_max {cbCodes : List (String × NMat)} {n_hyb : Nat}
    {feats : List (List (List ℚ))}
    (hNone : ∀ p ∈ cbCodes, p.1 ≠ "None") :
    (decode_per_hyb_max cbCodes n_hyb feats).length = feats.length ∧
    ∀ (i : Nat) (m : List (List ℚ)), feats[i]? = some m →
      ∃ g, (decode_per_hyb_max cbCodes n_hyb feats)[i]? = some g ∧
        g = lastMatchGene
          (cbCodes.map (fun p => (p.1, argmaxPerHyb (0 : Nat) p.2 n_hyb)))
          (argmaxPerHyb (0 : ℚ) m n_hyb) ∧
        (g ≠ "None" ↔ ∃ p ∈ cbCodes,
          argmaxPerHyb (0 : Nat) p.2 n_hyb = argmaxPerHyb (0 : ℚ) m n_hyb) := by
  constructor
  · simp only [decode_per_hyb_max]
    rw [decode_fold_length, List.length_map]
  · intro i m hm
    refine ⟨_, by rw [decode_per_hyb_max_getElem?, hm, Option.map_some'],
      rfl, ?_⟩
    have hNone' : ∀ gc ∈ cbCodes.map
        (fun p => (p.1, argmaxPerHyb (0 : Nat) p.2 n_hyb)), gc.1 ≠ "None" := by
      intro gc hgc
      obtain ⟨p, hp, rfl⟩ := List.mem_map.mp hgc
      exact hNone p hp
    rw [lastMatchGene_ne_none_iff hNone']
    constructor
    · rintro ⟨gc, hgc, hmatch⟩
      obtain ⟨p, hp, rfl⟩ := List.mem_map.mp hgc
      exact ⟨p, hp, hmatch⟩
    · rintro ⟨p, hp, hmatch⟩
      exact ⟨(p.1, argmaxPerHyb (0 : Nat) p.2 n_hyb),
        List.mem_map_of_mem _ hp, hmatch⟩

/-- Witness for C2: two codes with identical per-round winning channels —
the feature matching both is labelled with the gene of the last one. -/
theorem c2_decode_per_hyb_max_witness :
    (decode_per_hyb_max [("A", [[1, 0], [0, 1]]), ("B", [[1, 0], [0, 1]])] 2
      [[[2, 0], [1, 3]]]).length = 1 ∧
    ∃ g, (decode_per_hyb_max [("A", [[1, 0], [0, 1]]), ("B", [[1, 0], [0, 1]])]
        2 [[[2, 0], [1, 3]]])[0]? = some g ∧
      g = lastMatchGene
        ([("A", ([[1, 0], [0, 1]] : NMat)),
          ("B", [[1, 0], [0, 1]])].map
          (fun p => (p.1, argmaxPerHyb (0 : Nat) p.2 2)))
        (argmaxPerHyb (0 : ℚ) [[2, 0], [1, 3]] 2) ∧
      (g ≠ "None" ↔ ∃ p ∈ [("A", ([[1, 0], [0, 1]] : NMat)),
          ("B", [[1, 0], [0, 1]])],
        argmaxPerHyb (0 : Nat) p.2 2 = argmaxPerHyb (0 : ℚ) [[2, 0], [1, 3]] 2) := by
  have h := @c2_decode_per_hyb_max
    [("A", [[1, 0], [0, 1]]), ("B", [[1, 0], [0, 1]])]
    2 [[[2, 0], [1, 3]]] (by decide)
  exact ⟨h.1, h.2 0 [[2, 0], [1, 3]] rfl⟩

/-! ### Normalization (C3) -/

/-- Source `fillna` output never contains NaN. -/
theorem fillnaP_ne_nan (c : ℚ) (y : PFloat) : fillnaP c y ≠ .nan := by
  cases y <;> simp [fillnaP]

/-- Claim **C3**: the normalization helper returns, per feature, the vector
divided entrywise by its norm together with the vector of pre-division
norms; a feature of non-zero norm is plainly divided; an all-zero feature
(norm zero) comes back as the uniform vector whose every entry is the norm
of the length-`n` vector with entries `1/n`, divided by `n`; and no entry
of any normalized feature is NaN (every NaN produced by `0/0` is replaced
by `fillna`). -/
theorem c3_normalize_features (normf : List ℚ → ℚ) (n : Nat)
    (vs : List (List ℚ)) :
    (_normalize_features normf n vs).1 = vs.map (normalizeVec normf n) ∧
    (_normalize_features normf n vs).2 = vs.map normf ∧
    (∀ v ∈ vs, normf v ≠ 0 →
      normalizeVec normf n v = v.map (fun x => .val (x / normf v))) ∧
    (∀ v ∈ vs, (∀ x ∈ v, x = 0) → normf v = 0 →
      normalizeVec normf n v = List.replicate v.length
        (.val (normf (List.replicate n (1 / (n : ℚ))) / n))) ∧
    (∀ v ∈ vs, PFloat.nan ∉ normalizeVec normf n v) := by
  refine ⟨rfl, rfl, ?_, ?_, ?_⟩
  · intro v _hv hnz
    unfold normalizeVec
    apply List.map_congr_left
    intro x _hx
    unfold pdiv fillnaP
    rw [if_neg hnz]
  · intro v _hv hzero hnrm
    unfold normalizeVec
    have hconst : ∀ x ∈ v, fillnaP (partitionedIntensity normf n)
        (pdiv x (normf v)) =
        .val (normf (List.replicate n (1 / (n : ℚ))) / n) := by
      intro x hx
      rw [hzero x hx, hnrm]
      unfold pdiv
      rw [if_pos rfl, if_pos rfl]
      rfl
    calc v.map (fun x => fillnaP (partitionedIntensity normf n)
          (pdiv x (normf v)))
        = v.map (fun _ => PFloat.val
            (normf (List.replicate n (1 / (n : ℚ))) / n)) :=
          List.map_congr_left hconst
      _ = List.replicate v.length
            (.val (normf (List.replicate n (1 / (n : ℚ))) / n)) := by
          rw [List.map_const']
  · intro v _hv hmem
    unfold normalizeVec at hmem
    obtain ⟨x, _hx, hfx⟩ := List.mem_map.mp hmem
    exact fillnaP_ne_nan _ _ hfx

/-- Witness for C3 with the L1 norm on two features, one all-zero: the
norms come back as `[0, 7]`, the non-zero feature is divided through, the
zero feature becomes the uniform partitioned-intensity vector
(`L1([1/2, 1/2]) / 2 = 1/2`), and neither contains NaN. -/
theorem c3_normalize_features_witness :
    (_normalize_features L1norm 2 [[0, 0], [3, 4]]).2 = [0, 7] ∧
    normalizeVec L1norm 2 [3, 4] = [.val (3 / 7), .val (4 / 7)] ∧
    normalizeVec L1norm 2 [0, 0] = List.replicate 2
      (.val (L1norm (List.replicate 2 (1 / (2 : ℚ))) / 2)) ∧
    PFloat.nan ∉ normalizeVec L1norm 2 [0, 0] := by
  have h := c3_normalize_features L1norm 2 [[0, 0], [3, 4]]
  refine ⟨h.2.1.trans (by norm_num [L1norm]), ?_, ?_, ?_⟩
  · have h2 := h.2.2.1 [3, 4] (by simp) (by norm_num [L1norm])
    rw [h2]
    norm_num [L1norm]
  · exact h.2.2.2.1 [0, 0] (by simp) (by norm_num) (by norm_num [L1norm])
  · exact h.2.2.2.2 [0, 0] (by simp)

/-! ### Nearest-neighbor metric decoding (C1) -/

theorem firstArgmin_lt_length {l : List ℚ} (h : l ≠ []) :
    firstArgmin l < l.length := by
  induction l with
  | nil => exact absurd rfl h
  | cons x xs ih =>
    unfold firstArgmin
    by_cases hall : xs.all (fun y => decide (x ≤ y))
    · rw [if_pos hall]
      simp
    · rw [if_neg hall]
      have hxs : xs ≠ [] := by
        rintro rfl
        exact hall rfl
      have := ih hxs
      simp only [List.length_cons]
      omega

theorem getD_firstArgmin_le {l : List ℚ} (h : l ≠ []) (k : Nat)
    (hk : k < l.length) :
    l.getD (firstArgmin l) 0 ≤ l.getD k 0 := by
  induction l generalizing k with
  | nil => exact absurd rfl h
  | cons x xs ih =>
    by_cases hall : xs.all (fun y => decide (x ≤ y))
    · have h0 : firstArgmin (x :: xs) = 0 := by
        unfold firstArgmin
        rw [if_pos hall]
      rw [h0]
      cases k with
      | zero => exact le_refl _
      | succ k' =>
        have hk' : k' < xs.length := by simpa using hk
        show x ≤ xs.getD k' 0
        rw [List.getD_eq_getElem _ _ hk']
        exact by simpa using (List.all_eq_true.mp hall _ (List.getElem_mem hk'))
    · have hxs : xs ≠ [] := by
        rintro rfl
        exact hall rfl
      have h0 : firstArgmin (x :: xs) = firstArgmin xs + 1 := by
        show (if (xs.all fun y => decide (x ≤ y)) = true then 0
          else firstArgmin xs + 1) = firstArgmin xs + 1
        rw [if_neg hall]
      rw [h0]
      show xs.getD (firstArgmin xs) 0 ≤ (x :: xs).getD k 0
      cases k with
      | zero =>
        obtain ⟨y, hy, hxy⟩ : ∃ y ∈ xs, ¬ x ≤ y := by
          by_contra hcon
          push_neg at hcon
          exact hall (List.all_eq_true.mpr (fun y hy => by
            simpa using hcon y hy))
        obtain ⟨ky, hky, hkyy⟩ := List.mem_iff_getElem.mp hy
        have := ih hxs ky hky
        rw [List.getD_eq_getElem _ _ hky, hkyy] at this
        exact le_trans this (le_of_not_le hxy)
      | succ k' =>
        exact ih hxs k' (by simpa using hk)

/-- The distance `nearestCode` reports is minimal over all codes. -/
theorem nearestCode_min {metric : List PFloat → List PFloat → ℚ}
    {normCodes : List (String × List PFloat)} (hne : normCodes ≠ [])
    (f : List PFloat) :
    ∀ q ∈ normCodes, (nearestCode metric normCodes f).1 ≤ metric f q.2 := by
  intro q hq
  obtain ⟨k, hk, hkq⟩ := List.mem_iff_getElem.mp hq
  have hdne : normCodes.map (fun c => metric f c.2) ≠ [] := by
    simpa using hne
  have hdk : k < (normCodes.map (fun c => metric f c.2)).length := by
    simpa using hk
  have h1 := getD_firstArgmin_le hdne k hdk
  rw [List.getD_eq_getElem _ _ hdk, List.getElem_map, hkq] at h1
  exact h1

/-- Claim **C1**: `metric_decode` attaches exactly one `(gene, distance)` pair per
feature; a feature whose pre-normalization norm falls below `min_intensity`
is assigned the sentinel `"None"` regardless of its distance, a feature
whose nearest-code distance exceeds `max_distance` is assigned `"None"`
regardless of its norm, and every other feature is assigned the gene of
its nearest normalized code; the reported distance is the one to the
nearest code — minimal over all codes under the supplied metric (the
tie-break among exactly equidistant codes follows the embedding's
first-minimum rule; the source's ball-tree order is implementation
defined). -/
theorem c1_metric_decode {codes : List (String × List ℚ)}
    {feats : List (List ℚ)} {max_distance min_intensity : ℚ}
    {normf : List ℚ → ℚ} {metric : List PFloat → List PFloat → ℚ}
    {n_codes n_feats : Nat} (hne : codes ≠ []) :
    (metric_decode codes feats max_distance min_intensity normf metric
      n_codes n_feats).length = feats.length ∧
    ∀ (i : Nat) (v : List ℚ), feats[i]? = some v →
      ∃ g d, (metric_decode codes feats max_distance min_intensity normf
          metric n_codes n_feats)[i]? = some (g, d) ∧
        (normf v < min_intensity → g = "None") ∧
        (d > max_distance → g = "None") ∧
        (¬ normf v < min_intensity → ¬ d > max_distance →
          g = (nearestCode metric
            (codes.map (fun p => (p.1, normalizeVec normf n_codes p.2)))
            (normalizeVec normf n_feats v)).2) ∧
        d = (nearestCode metric
          (codes.map (fun p => (p.1, normalizeVec normf n_codes p.2)))
          (normalizeVec normf n_feats v)).1 ∧
        ∀ p ∈ codes, d ≤ metric (normalizeVec normf n_feats v)
          (normalizeVec normf n_codes p.2) := by
  constructor
  · simp only [metric_decode, _normalize_features]
    rw [List.length_map, List.length_zip, List.length_map, List.length_map]
    omega
  · intro i v hv
    have hi : i < feats.length := (List.getElem?_eq_some_iff.mp hv).1
    have hvi : feats[i] = v := by
      rw [List.getElem?_eq_getElem hi] at hv
      injection hv
    have hcell : (metric_decode codes feats max_distance min_intensity normf
        metric n_codes n_feats)[i]? = some
        ((if normf v < min_intensity then "None"
          else if (nearestCode metric
              (codes.map (fun p => (p.1, normalizeVec normf n_codes p.2)))
              (normalizeVec normf n_feats v)).1 > max_distance then "None"
          else (nearestCode metric
            (codes.map (fun p => (p.1, normalizeVec normf n_codes p.2)))
            (normalizeVec normf n_feats v)).2),
         (nearestCode metric
            (codes.map (fun p => (p.1, normalizeVec normf n_codes p.2)))
            (normalizeVec normf n_feats v)).1) := by
      simp only [metric_decode, _normalize_features]
      rw [List.getElem?_eq_getElem (by
        rw [List.length_map, List.length_zip, List.length_map,
          List.length_map]
        omega)]
      rw [List.getElem_map, List.getElem_zip, List.getElem_map,
        List.getElem_map, hvi]
    refine ⟨_, _, hcell, ?_, ?_, ?_, rfl, ?_⟩
    · intro hmask
      rw [if_pos hmask]
    · intro hdist
      by_cases hmask : normf v < min_intensity
      · rw [if_pos hmask]
      · rw [if_neg hmask, if_pos hdist]
    · intro hmask hdist
      rw [if_neg hmask, if_neg hdist]
    · intro p hp
      have hne' : codes.map (fun p => (p.1, normalizeVec normf n_codes p.2))
          ≠ [] := by simpa using hne
      have := @nearestCode_min metric
        (codes.map (fun p => (p.1, normalizeVec normf n_codes p.2))) hne'
        (normalizeVec normf n_feats v)
        (p.1, normalizeVec normf n_codes p.2) (List.mem_map_of_mem _ hp)
      exact this

/-- Witness for C1: two unit codes under the L1 metric; the feature `[3, 0]`
is nearest to code `A`. -/
theorem c1_metric_decode_witness :
    (metric_decode [("A", [1, 0]), ("B", [0, 1])] [[3, 0]] (1 / 2) 1
      L1norm metricL1 2 2).length = 1 ∧
    ∃ g d, (metric_decode [("A", [1, 0]), ("B", [0, 1])] [[3, 0]] (1 / 2) 1
        L1norm metricL1 2 2)[0]? = some (g, d) ∧
      (L1norm [3, 0] < 1 → g = "None") ∧
      (d > 1 / 2 → g = "None") ∧
      (¬ L1norm [3, 0] < 1 → ¬ d > 1 / 2 →
        g = (nearestCode metricL1
          ([("A", ([1, 0] : List ℚ)), ("B", [0, 1])].map
            (fun p => (p.1, normalizeVec L1norm 2 p.2)))
          (normalizeVec L1norm 2 [3, 0])).2) ∧
      d = (nearestCode metricL1
        ([("A", ([1, 0] : List ℚ)), ("B", [0, 1])].map
          (fun p => (p.1, normalizeVec L1norm 2 p.2)))
        (normalizeVec L1norm 2 [3, 0])).1 ∧
      ∀ p ∈ [("A", ([1, 0] : List ℚ)), ("B", [0, 1])],
        d ≤ metricL1 (normalizeVec L1norm 2 [3, 0])
          (normalizeVec L1norm 2 p.2) := by
  have h := @c1_metric_decode [("A", [1, 0]), ("B", [0, 1])] [[3, 0]]
    (1 / 2) 1 L1norm metricL1 2 2 (by simp)
  exact ⟨h.1, h.2 0 [3, 0] rfl⟩

end Codebook

/-! ### Exact-match trace building (C9) -/

namespace TraceBuilder

theorem traceShape_zerosTrace (n n_ch n_rd : Nat) :
    TraceShape (zerosTrace n n_ch n_rd) n_ch n_rd := by
  intro row hrow
  simp only [zerosTrace, List.mem_replicate] at hrow
  rw [hrow.2]
  refine ⟨by simp, ?_⟩
  intro col hcol
  simp only [List.mem_replicate] at hcol
  rw [hcol.2]
  simp

theorem length_setColumn (t : Trace) (ci ri : Nat) (vals : List ℚ) :
    (setColumn t ci ri vals).length = t.length := by
  simp [setColumn]

theorem traceShape_setColumn {t : Trace} {n_ch n_rd : Nat}
    (hs : TraceShape t n_ch n_rd) (ci ri : Nat) (vals : List ℚ) :
    TraceShape (setColumn t ci ri vals) n_ch n_rd := by
  intro row hrow
  obtain ⟨i, hi, hrow'⟩ := List.mem_iff_getElem.mp hrow
  unfold setColumn at hrow'
  rw [List.getElem_mapIdx] at hrow'
  have hit : i < t.length := by
    have := hi
    rw [length_setColumn] at this
    exact this
  obtain ⟨hrl, hrc⟩ := hs t[i] (List.getElem_mem hit)
  by_cases hci : ci < t[i].length
  · constructor
    · rw [← hrow', List.length_set, hrl]
    · intro col hcol
      rw [← hrow'] at hcol
      rcases List.mem_or_eq_of_mem_set hcol with hm | he
      · exact hrc col hm
      · subst he
        rw [List.length_set, List.getD_eq_getElem _ _ hci]
        exact hrc _ (List.getElem_mem hci)
  · rw [← hrow', List.set_eq_of_length_le (by omega)]
    exact ⟨hrl, hrc⟩

theorem cellAt_zerosTrace (n n_ch n_rd i ci ri : Nat) :
    cellAt (zerosTrace n n_ch n_rd) i ci ri = 0 := by
  unfold cellAt zerosTrace
  rw [Codebook.getD_replicate]
  split
  · rw [Codebook.getD_replicate]
    split
    · rw [Codebook.getD_replicate]
      split <;> rfl
    · rfl
  · rfl

theorem cellAt_setColumn {t : Trace} {n_ch n_rd : Nat}
    (hs : TraceShape t n_ch n_rd) {ci ri : Nat} (hci : ci < n_ch)
    (hri : ri < n_rd) (vals : List ℚ) (i ci' ri' : Nat) :
    cellAt (setColumn t ci ri vals) i ci' ri' =
      if i < t.length ∧ ci' = ci ∧ ri' = ri then vals.getD i 0
      else cellAt t i ci' ri' := by
  unfold cellAt setColumn
  by_cases hi : i < t.length
  · have h1 : (t.mapIdx (fun i row =>
        row.set ci ((row.getD ci []).set ri (vals.getD i 0)))).getD i [] =
        t[i].set ci ((t[i].getD ci []).set ri (vals.getD i 0)) := by
      rw [List.getD_eq_getElem _ _ (by rw [List.length_mapIdx]; exact hi),
        List.getElem_mapIdx]
    rw [h1]
    obtain ⟨hrl, hrc⟩ := hs t[i] (List.getElem_mem hi)
    have hcit : ci < t[i].length := by omega
    have hril : ri < (t[i].getD ci []).length := by
      rw [List.getD_eq_getElem _ _ hcit]
      rw [hrc _ (List.getElem_mem hcit)]
      exact hri
    have h2 : (t.getD i []) = t[i] := List.getD_eq_getElem _ _ hi
    rw [h2]
    by_cases hcc : ci' = ci
    · subst hcc
      rw [Codebook.getD_set_self _ _ _ _ hcit]
      by_cases hrr : ri' = ri
      · subst hrr
        rw [Codebook.getD_set_self _ _ _ _ hril, if_pos ⟨hi, rfl, rfl⟩]
      · rw [Codebook.getD_set_ne _ (fun hx => hrr hx.symm),
          if_neg (by tauto)]
    · rw [Codebook.getD_set_ne _ (fun hx => hcc hx.symm), if_neg (by tauto)]
  · rw [if_neg (by tauto)]
    have h1 : (t.mapIdx (fun i row =>
        row.set ci ((row.getD ci []).set ri (vals.getD i 0)))).getD i
        ([] : List (List ℚ)) = [] :=
      Codebook.getD_of_le _ (by rw [List.length_mapIdx]; omega) _
    have h2 : t.getD i ([] : List (List ℚ)) = [] :=
      Codebook.getD_of_le _ (by omega) _
    rw [h1, h2]

theorem foldColumns_length (chs rds : List Nat)
    (tables : List ((Nat × Nat) × SpotTable)) (t : Trace) :
    (foldColumns chs rds tables t).length = t.length := by
  induction tables generalizing t with
  | nil => rfl
  | cons q rest ih =>
    show (foldColumns chs rds rest _).length = _
    rw [ih, length_setColumn]

theorem foldColumns_shape {chs rds : List Nat}
    {tables : List ((Nat × Nat) × SpotTable)} {t : Trace}
    (hs : TraceShape t chs.length rds.length) :
    TraceShape (foldColumns chs rds tables t) chs.length rds.length := by
  induction tables generalizing t with
  | nil => exact hs
  | cons q rest ih => exact ih (traceShape_setColumn hs _ _ _)

theorem foldColumns_cell_untouched {chs rds : List Nat}
    {tables : List ((Nat × Nat) × SpotTable)} {t : Trace} {ci ri : Nat}
    (hs : TraceShape t chs.length rds.length)
    (hmemk : ∀ x ∈ tables, x.1.2 ∈ chs ∧ x.1.1 ∈ rds)
    (hunt : ∀ x ∈ tables, chs.indexOf x.1.2 ≠ ci ∨ rds.indexOf x.1.1 ≠ ri)
    (i : Nat) :
    cellAt (foldColumns chs rds tables t) i ci ri = cellAt t i ci ri := by
  induction tables generalizing t with
  | nil => rfl
  | cons q rest ih =>
    have hq := hmemk q (List.mem_cons_self q rest)
    have hciq : chs.indexOf q.1.2 < chs.length := List.indexOf_lt_length.mpr hq.1
    have hriq : rds.indexOf q.1.1 < rds.length := List.indexOf_lt_length.mpr hq.2
    show cellAt (foldColumns chs rds rest _) i ci ri = _
    rw [ih (traceShape_setColumn hs _ _ _)
      (fun x hx => hmemk x (List.mem_cons_of_mem _ hx))
      (fun x hx => hunt x (List.mem_cons_of_mem _ hx))]
    rw [cellAt_setColumn hs hciq hriq]
    rw [if_neg (by
      have := hunt q (List.mem_cons_self q rest)
      tauto)]

theorem foldColumns_cell {chs rds : List Nat}
    {tables : List ((Nat × Nat) × SpotTable)}
    (hmemk : ∀ x ∈ tables, x.1.2 ∈ chs ∧ x.1.1 ∈ rds)
    (hnd : (tables.map Prod.fst).Nodup) :
    ∀ {t : Trace}, TraceShape t chs.length rds.length →
    ∀ p ∈ tables, ∀ i, i < t.length →
      cellAt (foldColumns chs rds tables t) i
        (chs.indexOf p.1.2) (rds.indexOf p.1.1) = p.2.intensities.getD i 0 := by
  induction tables with
  | nil =>
    intro t _ p hp
    simp at hp
  | cons q rest ih =>
    intro t hs p hp i hi
    have hq := hmemk q (List.mem_cons_self q rest)
    have hciq : chs.indexOf q.1.2 < chs.length := List.indexOf_lt_length.mpr hq.1
    have hriq : rds.indexOf q.1.1 < rds.length := List.indexOf_lt_length.mpr hq.2
    have hndrest : (rest.map Prod.fst).Nodup := (List.nodup_cons.mp hnd).2
    have hqnot : q.1 ∉ rest.map Prod.fst := (List.nodup_cons.mp hnd).1
    rcases List.mem_cons.mp hp with rfl | hprest
    · show cellAt (foldColumns chs rds rest
          (setColumn t (chs.indexOf p.1.2) (rds.indexOf p.1.1)
            p.2.intensities)) i _ _ = _
      rw [foldColumns_cell_untouched (traceShape_setColumn hs _ _ _)
        (fun x hx => hmemk x (List.mem_cons_of_mem _ hx)) ?_ i]
      · rw [cellAt_setColumn hs hciq hriq, if_pos ⟨hi, rfl, rfl⟩]
      · intro x hx
        have hxk := hmemk x (List.mem_cons_of_mem _ hx)
        by_contra hcon
        push_neg at hcon
        have hbx1 : chs.indexOf x.1.2 < chs.length :=
          List.indexOf_lt_length.mpr hxk.1
        have hbx2 : rds.indexOf x.1.1 < rds.length :=
          List.indexOf_lt_length.mpr hxk.2
        have hxc : x.1.2 = p.1.2 := by
          have h1 : chs[chs.indexOf x.1.2] = x.1.2 := List.getElem_indexOf _
          have h2 : chs[chs.indexOf p.1.2] = p.1.2 := List.getElem_indexOf _
          rw [← h1, ← h2]
          congr 1
          exact hcon.1
        have hxr : x.1.1 = p.1.1 := by
          have h1 : rds[rds.indexOf x.1.1] = x.1.1 := List.getElem_indexOf _
          have h2 : rds[rds.indexOf p.1.1] = p.1.1 := List.getElem_indexOf _
          rw [← h1, ← h2]
          congr 1
          exact hcon.2
        apply hqnot
        have : x.1 = p.1 := Prod.ext hxr hxc
        rw [← this]
        exact List.mem_map_of_mem _ hx
    · show cellAt (foldColumns chs rds rest
          (setColumn t (chs.indexOf q.1.2) (rds.indexOf q.1.1)
            q.2.intensities)) i _ _ = _
      exact ih (fun x hx => hmemk x (List.mem_cons_of_mem _ hx)) hndrest
        (traceShape_setColumn hs _ _ _) p hprest i
        (by rw [length_setColumn]; exact hi)

/-- Claim **C9**: on a `SpotFindingResults` whose `(round 0, channel 0)` table is
present and whose per-`(round, channel)` tables are positionally aligned
with it (equal spot counts — the 1:1 correspondence the exact-match
strategy assumes), `build_spot_traces_exact_match` produces a trace with
exactly one feature per reference spot, and for every `(round, channel)`
key of the input, the cell at (feature `i`, that channel, that round)
equals the intensity of the spot at positional index `i` of that table. -/
theorem c9_build_spot_traces_exact_match {s : SpotFindingResults}
    {ref : SpotTable}
    (href : s.tables.find? (fun p => p.1 = (0, 0)) = some ((0, 0), ref))
    (hnd : (s.tables.map Prod.fst).Nodup)
    (hlen : ∀ p ∈ s.tables, p.2.intensities.length = ref.intensities.length) :
    ∃ t : Trace, build_spot_traces_exact_match s = some t ∧
      t.length = ref.intensities.length ∧
      ∀ p ∈ s.tables, ∀ i, i < ref.intensities.length →
        p.2.intensities[i]? = some (cellAt t i (s.ch_labels.indexOf p.1.2)
          (s.round_labels.indexOf p.1.1)) := by
  have hmemk : ∀ x ∈ s.tables, x.1.2 ∈ s.ch_labels ∧ x.1.1 ∈ s.round_labels := by
    intro x hx
    constructor
    · rw [SpotFindingResults.ch_labels, List.mem_dedup]
      exact List.mem_map_of_mem _ hx
    · rw [SpotFindingResults.round_labels, List.mem_dedup]
      exact List.mem_map_of_mem _ hx
  refine ⟨foldColumns s.ch_labels s.round_labels s.tables
    (zerosTrace ref.intensities.length s.ch_labels.length
      s.round_labels.length), ?_, ?_, ?_⟩
  · unfold build_spot_traces_exact_match
    rw [href]
    rfl
  · show (foldColumns _ _ _ _).length = _
    rw [foldColumns_length]
    simp [zerosTrace]
  · intro p hp i hi
    have hzl : (zerosTrace ref.intensities.length s.ch_labels.length
        s.round_labels.length).length = ref.intensities.length := by
      simp [zerosTrace]
    have hcell := foldColumns_cell hmemk hnd
      (traceShape_zerosTrace _ _ _) p hp i (by rw [hzl]; exact hi)
    have hpi : i < p.2.intensities.length := by
      rw [hlen p hp]; exact hi
    rw [hcell, List.getD_eq_getElem _ _ hpi, List.getElem?_eq_getElem hpi]

/-- Witness for C9 on a three-key input (rounds and channels `{0, 1}`, all
tables holding two spots). -/
theorem c9_build_spot_traces_exact_match_witness :
    ∃ t : Trace, build_spot_traces_exact_match exSpots = some t ∧
      t.length = (SpotTable.mk [1, 2]).intensities.length ∧
      ∀ p ∈ exSpots.tables, ∀ i,
        i < (SpotTable.mk [1, 2]).intensities.length →
        p.2.intensities[i]? = some (cellAt t i
          (exSpots.ch_labels.indexOf p.1.2)
          (exSpots.round_labels.indexOf p.1.1)) :=
  @c9_build_spot_traces_exact_match exSpots ⟨[1, 2]⟩
    (by decide) (by decide) (by decide)

end TraceBuilder
